import Mathlib

/-!
Verification of the FRI low-degree test core (`src/shared_math/low_degree_test.rs`).

The Rust core is embedded shallowly:

* `i128` / `BigInt` arithmetic is modelled by the unbounded `Int`.  This is exact
  for the `BigInt` ("bigint") variants of the functions; for the `i128` variants it
  is exact whenever no intermediate value overflows `i128`, which holds for all
  moduli considered in the theorems below.  Rust's `%` on `i128`/`BigInt` is the
  truncated remainder, i.e. `Int.tmod`; where both operands are known nonnegative
  we use `Int.emod` (written `%`), which agrees with it there.
* Machine-integer behaviour that matters is modelled explicitly: a Rust
  debug-build panic (arithmetic overflow, out-of-bounds slice/index,
  `Option::unwrap` on `None`, explicit `panic!`) is the `panics` constructor of
  `PanicOr`; a silent `as u16` truncating cast is an explicit `% 2^16`.
* External collaborator modules that are not part of the sources under `src/`
  (the blake3 hash, the Merkle-tree module, the prime-field helpers, the
  polynomial helpers and `log_2_ceil` from `other.rs`) are referenced by the core
  only through their interfaces; each of them is modelled from the spec and its
  doc comment says so.  In particular the 32-byte hash is an arbitrary function
  parameter `h`, normalised by `digest32`.
-/

set_option synthInstance.maxSize 2000
set_option maxRecDepth 4000
set_option autoImplicit false

namespace FriLdt

/-! ## Bytes and little-endian integer encoding (bincode fixint) -/

/-- Little-endian fixed-width encoding of a natural number, `w` bytes, least
significant byte first.  This is bincode's fixint encoding of unsigned
integers; encoding a number that does not fit in `w` bytes keeps only the low
`8*w` bits, which models Rust's silent truncating `as` casts. -/
def encLE : Nat → Nat → List Nat
  | 0, _ => []
  | w + 1, n => n % 256 :: encLE w (n / 256)

/-- 2-byte little-endian encoding (`u16`). -/
def enc16 (n : Nat) : List Nat := encLE 2 n

/-- 4-byte little-endian encoding (`u32`). -/
def enc32 (n : Nat) : List Nat := encLE 4 n

/-- Decode a little-endian byte list into a natural number. -/
def decLE : List Nat → Nat
  | [] => 0
  | b :: bs => b + 256 * decLE bs

theorem encLE_length (w n : Nat) : (encLE w n).length = w := by
  induction w generalizing n with
  | zero => rfl
  | succ w ih => simp [encLE, ih]

theorem nat_mod_mul_decomp (n b c : Nat) : n % (b * c) = b * (n / b % c) + n % b := by
  conv_lhs => rw [← Nat.div_add_mod (n % (b * c)) b]
  rw [Nat.mod_mul_right_div_self, Nat.mod_mod_of_dvd n ⟨c, rfl⟩]

theorem decLE_encLE (w n : Nat) : decLE (encLE w n) = n % 256 ^ w := by
  induction w generalizing n with
  | zero => simp [encLE, decLE, Nat.mod_one]
  | succ w ih =>
      simp only [encLE, decLE, ih]
      conv_rhs => rw [pow_succ, Nat.mul_comm, nat_mod_mul_decomp n 256 (256 ^ w)]
      omega

theorem decLE_encLE_of_lt {w n : Nat} (h : n < 256 ^ w) : decLE (encLE w n) = n := by
  rw [decLE_encLE, Nat.mod_eq_of_lt h]

/-- Modelled from the spec: the wire form of a field element for the `i128`
backend is bincode's fixed 16-byte little-endian two's-complement encoding. -/
def enc128 (x : Int) : List Nat := encLE 16 (x % (2 ^ 128 : Int)).toNat

/-- Decode a 16-byte little-endian two's-complement `i128`; `none` on any other
input length (a bincode deserialization error). -/
def dec128 (bs : List Nat) : Option Int :=
  if bs.length = 16 then
    let n := decLE bs
    some (if n < 2 ^ 127 then (n : Int) else (n : Int) - 2 ^ 128)
  else none

theorem enc128_length (x : Int) : (enc128 x).length = 16 := encLE_length 16 _

theorem dec128_enc128 {x : Int} (h0 : 0 ≤ x) (h1 : x < 2 ^ 127) :
    dec128 (enc128 x) = some x := by
  have hmod : (x % (2 ^ 128 : Int)) = x := Int.emod_eq_of_lt h0 (by omega)
  have htlt : x.toNat < 2 ^ 127 := by omega
  have hlt : x.toNat < 256 ^ 16 := by
    have h256 : (256 : Nat) ^ 16 = 2 ^ 128 := by norm_num
    omega
  unfold enc128 dec128
  rw [hmod]
  rw [if_pos (encLE_length 16 x.toNat)]
  simp only [decLE_encLE_of_lt hlt]
  rw [if_pos htlt]
  simp [Int.toNat_of_nonneg h0]

/-! ## The hash collaborator -/

/-- Modelled from the spec: the PRF collaborator is a 32-byte cryptographic hash
(blake3 in the Rust code).  The embedding is parametric in an arbitrary function
`h`; `digest32 h` normalises it so that every output is exactly 32 bytes, each
below 256, as the real digest always is. -/
def digest32 (h : List Nat → List Nat) (bs : List Nat) : List Nat :=
  (((h bs).map (fun b => b % 256)) ++ List.replicate 32 0).take 32

theorem digest32_length (h : List Nat → List Nat) (bs : List Nat) :
    (digest32 h bs).length = 32 := by
  simp [digest32]

/-- Modelled from the spec: hash output bytes are interpreted as a big-endian
unsigned integer (used by `get_index_from_bytes` and `from_bytes_raw`). -/
def decBE (bs : List Nat) : Nat := bs.foldl (fun acc b => acc * 256 + b) 0

/-- Modelled from the spec: `get_index_from_bytes` (from `utils.rs`) reduces the
big-endian integer value of the digest modulo the requested range. -/
def get_index_from_bytes (bs : List Nat) (modulus : Nat) : Nat := decBE bs % modulus

/-- Modelled from the spec: `PrimeFieldElement::from_bytes_raw` interprets the
byte slice as a big-endian unsigned integer reduced modulo `q`. -/
def from_bytes_raw (q : Int) (bs : List Nat) : Int := (decBE bs : Int) % q

/-- Modelled from the spec: `field.pow(x, e) = x^e mod q` (`mod_pow_raw` /
`mod_pow` of the prime-field collaborator). -/
def mod_pow_raw (b : Int) (e : Nat) (q : Int) : Int := (b ^ e) % q

/-! ## The extended Euclidean algorithm collaborator -/

/-- Modelled from the spec: the extended Euclidean algorithm of the prime-field
collaborator; `eea a b = (g, u, v)` with `u*a + v*b = g = gcd a b` for the
nonnegative arguments the core uses.  Written with structural fuel so that it
evaluates inside the kernel. -/
def xgcdFuel : Nat → Int → Int → Int × Int × Int
  | 0, a, _ => (a, 1, 0)
  | fuel + 1, a, b =>
    if b = 0 then (a, 1, 0)
    else
      let r := xgcdFuel fuel b (a % b)
      (r.1, r.2.2, r.2.1 - a / b * r.2.2)

/-- The `eea` entry point of the prime-field collaborator. -/
def eea (a b : Int) : Int × Int × Int := xgcdFuel (b.natAbs + 1) a b

theorem xgcdFuel_spec :
    ∀ (fuel : Nat) (m n : Nat), n ≤ fuel →
      (xgcdFuel fuel (m : Int) (n : Int)).2.1 * m + (xgcdFuel fuel (m : Int) (n : Int)).2.2 * n
          = (xgcdFuel fuel (m : Int) (n : Int)).1
        ∧ (xgcdFuel fuel (m : Int) (n : Int)).1 = Nat.gcd m n := by
  intro fuel
  induction fuel with
  | zero =>
      intro m n hn
      have : n = 0 := Nat.le_zero.mp hn
      subst this
      simp [xgcdFuel]
  | succ f ih =>
      intro m n hn
      by_cases h0 : (n : Int) = 0
      · have hn0 : n = 0 := by exact_mod_cast h0
        subst hn0
        simp [xgcdFuel]
      · have hnpos : 0 < n := Nat.pos_of_ne_zero (by exact_mod_cast h0)
        have hfuel : m % n ≤ f := by
          have := Nat.mod_lt m hnpos
          omega
        have hrec := ih n (m % n) hfuel
        have hgcd : Nat.gcd n (m % n) = Nat.gcd m n := by
          rw [Nat.gcd_comm n (m % n), ← Nat.gcd_rec n m, Nat.gcd_comm]
        have hm : ((m % n : Nat) : Int) = (m : Int) - (n : Int) * ((m : Int) / (n : Int)) := by
          rw [Int.natCast_mod]
          have := Int.ediv_add_emod (m : Int) (n : Int)
          omega
        simp only [xgcdFuel, if_neg h0]
        rw [← Int.natCast_mod]
        set r := xgcdFuel f (n : Int) ((m % n : Nat) : Int) with hr
        constructor
        · have h1 := hrec.1
          linear_combination h1 - r.2.2 * hm
        · rw [hrec.2, hgcd]

/-- Bezout identity for `eea` on nonnegative arguments. -/
theorem eea_bezout (m n : Nat) :
    (eea (m : Int) (n : Int)).2.1 * m + (eea (m : Int) (n : Int)).2.2 * n = Nat.gcd m n := by
  unfold eea
  rw [Int.natAbs_ofNat]
  exact (xgcdFuel_spec (n + 1) m n (by omega)).1.trans (xgcdFuel_spec (n + 1) m n (by omega)).2

/-! ## log_2_ceil (from `other.rs`) -/

/-- Floor of the base-2 logarithm, by structural fuel. -/
def log2floorFuel : Nat → Nat → Nat
  | 0, _ => 0
  | fuel + 1, n => if n ≤ 1 then 0 else log2floorFuel fuel (n / 2) + 1

/-- Modelled from the spec: `log_2_ceil n` is the ceiling of the base-2
logarithm (`other.rs`, used by `get_rounds_count`). -/
def log_2_ceil (n : Nat) : Nat := if n ≤ 1 then 0 else log2floorFuel n (n - 1) + 1

theorem log2floorFuel_eq_log {fuel n : Nat} (h : n ≤ fuel) :
    log2floorFuel fuel n = Nat.log 2 n := by
  induction fuel generalizing n with
  | zero =>
      have : n = 0 := Nat.le_zero.mp h
      subst this
      simp [log2floorFuel]
  | succ f ih =>
      by_cases h1 : n ≤ 1
      · unfold log2floorFuel
        rw [if_pos h1]
        interval_cases n <;> simp
      · unfold log2floorFuel
        rw [if_neg h1]
        have h2 : 2 ≤ n := by omega
        rw [ih (by omega)]
        rw [Nat.log_of_one_lt_of_le (by norm_num) h2]

/-- `log_2_ceil` agrees with Mathlib's ceiling logarithm `Nat.clog 2`. -/
theorem log_2_ceil_eq_clog (n : Nat) : log_2_ceil n = Nat.clog 2 n := by
  unfold log_2_ceil
  by_cases h1 : n ≤ 1
  · rw [if_pos h1]
    interval_cases n <;> simp
  · rw [if_neg h1]
    have h2 : 2 ≤ n := by omega
    rw [log2floorFuel_eq_log (by omega)]
    -- both sides are the unique `m` with `2^(m-1) < n ≤ 2^m`
    have hlow : 2 ^ Nat.log 2 (n - 1) ≤ n - 1 := Nat.pow_log_le_self 2 (by omega)
    have hhigh : n - 1 < 2 ^ (Nat.log 2 (n - 1) + 1) := Nat.lt_pow_succ_log_self (by norm_num) _
    have hle : Nat.clog 2 n ≤ Nat.log 2 (n - 1) + 1 :=
      (Nat.le_pow_iff_clog_le (by norm_num)).mp (by omega)
    have hge : Nat.log 2 (n - 1) + 1 ≤ Nat.clog 2 n := by
      by_contra hc
      have : Nat.clog 2 n ≤ Nat.log 2 (n - 1) := by omega
      have hn : n ≤ 2 ^ Nat.log 2 (n - 1) :=
        le_trans (Nat.le_pow_clog (by norm_num) n) (Nat.pow_le_pow_right (by norm_num) this)
      omega
    omega

/-! ## get_rounds_count -/

/-- Embedding of `get_rounds_count`.  `none` models a Rust debug-build panic:
the `u32` overflow of `max_degree + 1`, the saturated float cast when
`expansion_factor = 0` followed by the `u8` subtraction underflow, the `u8`
subtraction underflow when `num_missed_rounds` exceeds the base round count,
and the `u32` overflow of `2u32.pow(num_missed_rounds)`.  The `f64` division of
two `u32` values followed by `.ceil()` is exact (its rounding error is below
`1/expansion_factor`), so it is embedded as exact ceiling division. -/
def get_rounds_count (codeword_size max_degree number_of_colinearity_checks : Nat) :
    Option (Nat × Nat) :=
  if 2 ^ 32 ≤ max_degree + 1 then none
  else
    let expansion_factor := codeword_size / (max_degree + 1)
    let rounds_count := log_2_ceil (max_degree + 1)
    if expansion_factor < number_of_colinearity_checks then
      if expansion_factor = 0 then none
      else
        let num_missed_rounds :=
          log_2_ceil ((number_of_colinearity_checks + expansion_factor - 1) / expansion_factor)
        if rounds_count < num_missed_rounds then none
        else if 32 ≤ num_missed_rounds then none
        else some (rounds_count - num_missed_rounds, 2 ^ num_missed_rounds - 1)
    else some (rounds_count, 0)

example : get_rounds_count 128 7 10 = some (3, 0) := by decide
example : get_rounds_count 128 7 16 = some (3, 0) := by decide
example : get_rounds_count 128 7 17 = some (2, 1) := by decide
example : get_rounds_count 128 7 32 = some (2, 1) := by decide
example : get_rounds_count 128 7 33 = some (1, 3) := by decide
example : get_rounds_count 128 7 64 = some (1, 3) := by decide
example : get_rounds_count 256 15 33 = some (2, 3) := by decide
example : get_rounds_count 1048576 65535 65 = some (13, 7) := by decide

/-! ## Panic modelling -/

deriving instance DecidableEq for Except

/-- Result of running a piece of Rust code that can panic in a debug build.
`panics` models arithmetic overflow/underflow, out-of-bounds slices and
indexing, `Option::unwrap()` on `None` and explicit `panic!` calls. -/
inductive PanicOr (α : Type) where
  | panics : PanicOr α
  | value : α → PanicOr α
deriving DecidableEq

/-! ## The index sampler (`get_abc_indices_internal`) -/

/-- Dense branch of `get_abc_indices_internal` (`num_locations > M/2`):
sampling without replacement from the `remaining` index list.  `preRound` is
`index_picker_preimage ++ [round]`; the loop variable `i` is appended as the
single nonce byte `(i % 256) as u8`. -/
def dense_pick (h : List Nat → List Nat) (preRound : List Nat) (half : Nat) :
    Nat → Nat → List Nat → List (Nat × Nat × Nat)
  | _, 0, _ => []
  | i, count + 1, remaining =>
    let hsh := digest32 h (preRound ++ [i % 256])
    let index_index := get_index_from_bytes hsh remaining.length
    let index := remaining.getD index_index 0
    (index, index + half, index) ::
      dense_pick h preRound half (i + 1) count (remaining.eraseIdx index_index)

/-- Sparse branch of `get_abc_indices_internal` (rejection sampling).  The Rust
counter is a `u8` that is incremented after every attempt, so the 256th attempt
(counter value 255) always overflows the counter afterwards: in a debug build
that is a panic, modelled by `panics`.  The fuel argument is only there to make
the recursion structural; with the initial fuel 256 the counter check fires
first. -/
def sparse_loop (h : List Nat → List Nat) (preRound : List Nat) (half s : Nat) :
    Nat → Nat → List Nat → List (Nat × Nat × Nat) → PanicOr (List (Nat × Nat × Nat))
  | 0, _, _, acc => if s ≤ acc.length then .value acc else .panics
  | fuel + 1, counter, picked, acc =>
    if s ≤ acc.length then .value acc
    else
      let hsh := digest32 h (preRound ++ [counter])
      let index := get_index_from_bytes hsh half
      let acc' := if picked.contains index then acc else acc ++ [(index, index + half, index)]
      let picked' := if picked.contains index then picked else index :: picked
      if counter = 255 then .panics
      else sparse_loop h preRound half s fuel (counter + 1) picked' acc'

/-- Embedding of `get_abc_indices_internal`.  The explicit `panic!` guard in the
source rejects `num_locations > 0xFF`, i.e. 256 itself panics even though the
panic message says the maximum is 256.  Rounds `≥ 63` would overflow the shift
amount (and `round + 1` overflows the `u8` at 255); all uses keep the round far
below that. -/
def get_abc_indices_internal (h : List Nat → List Nat) (index_picker_preimage : List Nat)
    (round : Nat) (num_locations : Nat) (full_codeword_side : Nat) :
    PanicOr (Option (List (Nat × Nat × Nat))) :=
  if 255 < num_locations then .panics
  else if 63 ≤ round then .panics
  else
    let half_code_word_size := full_codeword_side >>> (round + 1)
    if half_code_word_size < num_locations then .value none
    else
      let pre := index_picker_preimage ++ [round % 256]
      if half_code_word_size / 2 < num_locations then
        .value (some (dense_pick h pre half_code_word_size 0 num_locations
          (List.range half_code_word_size)))
      else
        match sparse_loop h pre half_code_word_size num_locations 256 0 [] [] with
        | .panics => .panics
        | .value acc => .value (some acc)

/-! ## The Merkle tree collaborator -/

/-- Modelled from the spec: the Merkle collaborator's
`PartialAuthenticationPath` is opaque to the core; the model records the opened
leaf value together with the committed leaf vector, which is enough to realise
the collaborator contract (`get_value`, `verify_multi_proof`, serialization). -/
structure PartialAuthenticationPath where
  value : Int
  leaves : List Int
deriving DecidableEq

instance : Inhabited PartialAuthenticationPath := ⟨{ value := 0, leaves := [] }⟩

/-- The opened leaf value carried by a path (`PartialAuthenticationPath::get_value`). -/
def get_value (p : PartialAuthenticationPath) : Int := p.value

/-- Modelled from the spec: a deterministic byte serialization of a leaf vector,
fed to the digest to form the Merkle root. -/
def encLeaves (leaves : List Int) : List Nat := (leaves.map enc128).flatten

/-- Modelled from the spec: `MerkleTree::from_vec(leaves).get_root()` is a
32-byte digest that is a pure function of the leaf vector. -/
def merkle_root (h : List Nat → List Nat) (leaves : List Int) : List Nat :=
  digest32 h (encLeaves leaves)

/-- Modelled from the spec: `tree.get_multi_proof(indices)` opens the committed
vector at the requested indices. -/
def get_multi_proof (leaves : List Int) (indices : List Nat) :
    List PartialAuthenticationPath :=
  indices.map (fun i => { value := leaves.getD i 0, leaves := leaves })

/-- Modelled from the spec: `MerkleTree::verify_multi_proof(root, indices,
paths)` checks that each path authenticates the leaf at its index against the
committed root. -/
def verify_multi_proof (h : List Nat → List Nat) (root : List Nat) (indices : List Nat)
    (paths : List PartialAuthenticationPath) : Bool :=
  decide (indices.length = paths.length) &&
    (indices.zip paths).all (fun ip =>
      decide (merkle_root h ip.2.leaves = root) &&
        decide (ip.2.value = ip.2.leaves.getD ip.1 0))

/-- Honest openings verify. -/
theorem verify_multi_proof_honest (h : List Nat → List Nat) (leaves : List Int)
    (indices : List Nat) :
    verify_multi_proof h (merkle_root h leaves) indices (get_multi_proof leaves indices)
      = true := by
  induction indices with
  | nil => rfl
  | cons i is ih =>
      unfold verify_multi_proof get_multi_proof at *
      simp only [List.map_cons, List.zip_cons_cons, List.all_cons, List.length_cons,
        List.length_map, Bool.and_eq_true, decide_eq_true_eq] at *
      simp_all
      exact fun a b hab => ih a b hab

/-! ## Serialization of path vectors (opaque to the core) -/

/-- Modelled from the spec: bincode serialization of one authentication path:
a 4-byte leaf count, the 16-byte opened value, then the leaves. -/
def encPath (p : PartialAuthenticationPath) : List Nat :=
  enc32 p.leaves.length ++ enc128 p.value ++ encLeaves p.leaves

/-- Modelled from the spec: bincode serialization of a path vector — a 2-byte
count followed by the serialized paths. -/
def encPaths (ps : List PartialAuthenticationPath) : List Nat :=
  enc16 ps.length ++ (ps.map encPath).flatten

/-- Read `n` consecutive 16-byte field elements. -/
def decInts : Nat → List Nat → Option (List Int × List Nat)
  | 0, bs => some ([], bs)
  | n + 1, bs =>
    match dec128 (bs.take 16) with
    | none => none
    | some v =>
      match decInts n (bs.drop 16) with
      | none => none
      | some (vs, rest) => some (v :: vs, rest)

/-- Read one serialized authentication path. -/
def decPath (bs : List Nat) : Option (PartialAuthenticationPath × List Nat) :=
  if bs.length < 20 then none
  else
    let n := decLE (bs.take 4)
    match dec128 ((bs.drop 4).take 16) with
    | none => none
    | some v =>
      match decInts n ((bs.drop 4).drop 16) with
      | none => none
      | some (ls, rest) => some ({ value := v, leaves := ls }, rest)

/-- Read `n` consecutive serialized paths. -/
def decPathsAux : Nat → List Nat → Option (List PartialAuthenticationPath)
  | 0, _ => some []
  | n + 1, bs =>
    match decPath bs with
    | none => none
    | some (p, rest) =>
      match decPathsAux n rest with
      | none => none
      | some ps => some (p :: ps)

/-- Modelled from the spec: `bincode::deserialize_from` for a path vector;
trailing bytes after the encoded value are ignored, as the Rust reader's are. -/
def decPaths (bs : List Nat) : Option (List PartialAuthenticationPath) :=
  if bs.length < 2 then none
  else decPathsAux (decLE (bs.take 2)) (bs.drop 2)

/-! ## The polynomial collaborator -/

/-- Modelled from the spec: `are_colinear_raw` checks collinearity of three
points algebraically, `(y₂ − y₁)(x₃ − x₁) ≡ (y₃ − y₁)(x₂ − x₁) (mod q)`,
avoiding divisions. -/
def are_colinear_raw (q : Int) (p1 p2 p3 : Int × Int) : Bool :=
  ((p2.2 - p1.2) * (p3.1 - p1.1) - (p3.2 - p1.2) * (p2.1 - p1.1)) % q == 0

/-- Modelled from the spec: polynomials of the polynomial collaborator are
coefficient vectors over the prime field, lowest degree first; the model keeps
every coefficient reduced into `[0, q)`. -/
def polyAdd (q : Int) : List Int → List Int → List Int
  | [], g => g.map (fun b => b % q)
  | a :: f, [] => a % q :: polyAdd q f []
  | a :: f, b :: g => (a + b) % q :: polyAdd q f g

/-- Scale a polynomial by a field element. -/
def polyScale (q c : Int) (f : List Int) : List Int := f.map (fun a => c * a % q)

/-- Multiply a polynomial by the linear factor `X - x`. -/
def polyMulLin (q x : Int) (f : List Int) : List Int :=
  polyAdd q (0 :: f) (polyScale q (-x) f)

/-- Product of the linear factors `X - x` over `xs`. -/
def prodLin (q : Int) (xs : List Int) : List Int :=
  xs.foldr (fun x acc => polyMulLin q x acc) [1 % q]

/-- Horner evaluation of a coefficient vector modulo `q`. -/
def polyEval (q : Int) (f : List Int) (t : Int) : Int :=
  f.foldr (fun a acc => (a + t * acc) % q) 0

/-- Modular inverse through the extended Euclidean collaborator. -/
def modInv (q a : Int) : Int := (eea (a % q) q).2.1 % q

/-- The product `Π (xj - xk)` over the other interpolation nodes, reduced. -/
def lagrangeDenom (q : Int) (xj : Int) (others : List Int) : Int :=
  others.foldl (fun acc xk => acc * (xj - xk) % q) 1

/-- Modelled from the spec: `Polynomial::slow_lagrange_interpolation` of a
point set, as the sum of the scaled Lagrange basis polynomials. -/
def slow_lagrange_interpolation (q : Int) (points : List (Int × Int)) : List Int :=
  let n := points.length
  (List.range n).foldl
    (fun acc j =>
      let xj := (points.getD j (0, 0)).1
      let yj := (points.getD j (0, 0)).2
      let others := ((List.range n).filter (fun k => k ≠ j)).map fun k => (points.getD k (0, 0)).1
      let c := yj * modInv q (lagrangeDenom q xj others) % q
      polyAdd q acc (polyScale q c (prodLin q others)))
    []

/-- Strip high-order zero coefficients. -/
def stripTrailing (f : List Int) : List Int := (f.reverse.dropWhile (fun a => a == 0)).reverse

/-- Modelled from the spec: `Polynomial::degree()` as an `isize`; the zero
polynomial has degree `-1`. -/
def degree (f : List Int) : Int := (stripTrailing f).length - 1

/-! ## The proof object and error types -/

/-- Embedding of the `LowDegreeProof` structure. -/
structure LowDegreeProof where
  ab_proofs : List (List PartialAuthenticationPath)
  challenge_hash_preimages : List (List Nat)
  codeword_size : Nat
  c_proofs : List (List PartialAuthenticationPath)
  index_picker_preimage : List Nat
  max_degree : Nat
  max_degree_of_last_round : Nat
  merkle_roots : List (List Nat)
  primitive_root_of_unity : Int
  rounds_count : Nat
  s : Nat
deriving DecidableEq

instance : Inhabited LowDegreeProof :=
  ⟨{ ab_proofs := [], challenge_hash_preimages := [], codeword_size := 0, c_proofs := [],
     index_picker_preimage := [], max_degree := 0, max_degree_of_last_round := 0,
     merkle_roots := [], primitive_root_of_unity := 0, rounds_count := 0, s := 0 }⟩

/-- Embedding of the `ProveError` enum (the source misspells the second
variant, and the embedding keeps its name). -/
inductive ProveError where
  | BadMaxDegreeValue
  | NonPostiveRoundCount
deriving DecidableEq

/-- Embedding of the `ValidationError` enum. -/
inductive ValidationError where
  | BadMerkleProof
  | BadSizedProof
  | NonPostiveRoundCount
  | NotColinear
  | LastIterationTooHighDegree
deriving DecidableEq

/-- Errors of `from_serialization`, whose Rust signature mixes bincode codec
errors and `ValidationError` in a `Box<dyn Error>`. -/
inductive DeserializationError where
  | validation : ValidationError → DeserializationError
  | codec
deriving DecidableEq

/-- `proof.get_abc_indices(round)`. -/
def LowDegreeProof.get_abc_indices (h : List Nat → List Nat) (proof : LowDegreeProof)
    (round : Nat) : PanicOr (Option (List (Nat × Nat × Nat))) :=
  get_abc_indices_internal h proof.index_picker_preimage round proof.s proof.codeword_size

/-! ## FRI folding (`fri_prover_iteration_i128` / `fri_prover_iteration_bigint`) -/

/-- One folded entry: `((1 + β x⁻¹) C[i] + (1 − β x⁻¹) C[i+M]) ⋅ inv2`, reduced
into `[0, q)` by `(… % q + q) % q`; `x⁻¹` comes from the extended Euclidean
collaborator. -/
def friEntry (q challenge inv_two x ci cm : Int) : Int :=
  let x_inv := (eea x q).2.1
  ((((1 + challenge * x_inv) * ci + (1 - challenge * x_inv) * cm) * inv_two).tmod q + q).tmod q

/-- The fold loop; `x` is the running power of the round's working root. -/
def friLoop (cw : List Int) (challenge q inv_two root : Int) :
    Nat → Nat → Int → List Int
  | _, 0, _ => []
  | i, count + 1, x =>
    friEntry q challenge inv_two x (cw.getD i 0) (cw.getD (i + cw.length / 2) 0) ::
      friLoop cw challenge q inv_two root (i + 1) count ((x * root).tmod q)

/-- Embedding of `fri_prover_iteration_bigint` (and of
`fri_prover_iteration_i128`, which is identical modulo `i128` overflow). -/
def fri_prover_iteration (cw : List Int) (challenge q inv_two root : Int) : List Int :=
  friLoop cw challenge q inv_two root 0 (cw.length / 2) 1

/-! ## The prover -/

/-- Embedding of `prover_shared`: emits the 14-byte header, the length-prefixed
root of unity and the first Merkle root into the caller's transcript, then
derives the round parameters.  On `BadMaxDegreeValue` the transcript is
untouched; on `NonPostiveRoundCount` it has already been extended. -/
def prover_shared (h : List Nat → List Nat) (max_degree : Nat) (output : List Nat)
    (codeword : List Int) (s : Nat) (primitive_root_of_unity : Int) :
    PanicOr (List Nat × Except ProveError (Nat × List (List Int) × Nat)) :=
  if 2 ^ 32 ≤ max_degree + 1 then .panics
  else if (max_degree + 1) &&& max_degree ≠ 0 then .value (output, .error .BadMaxDegreeValue)
  else
    let root_serialization := enc128 primitive_root_of_unity
    let out := output ++ enc32 codeword.length ++ enc32 max_degree ++ enc32 s ++
      enc16 root_serialization.length ++ root_serialization ++ merkle_root h codeword
    match get_rounds_count codeword.length max_degree s with
    | none => .panics
    | some (rounds_count, max_degree_of_last_round) =>
      if rounds_count < 1 then .value (out, .error .NonPostiveRoundCount)
      else .value (out, .ok (rounds_count, [codeword], max_degree_of_last_round))

/-- State of the prover's commit phase. -/
structure CommitState where
  mut_codeword : List Int
  output : List Nat
  root_temp : Int
  challenge_hash_preimages : List (List Nat)
  mts : List (List Int)

/-- One round of the commit phase: snapshot the transcript, hash it into the
round challenge, fold the codeword, commit it and append the new root. -/
def commit_step (h : List Nat → List Nat) (q inv2 : Int) (st : CommitState) : CommitState :=
  let challenge := from_bytes_raw q ((digest32 h st.output).take 16)
  let cw := fri_prover_iteration st.mut_codeword challenge q inv2 st.root_temp
  { mut_codeword := cw
    output := st.output ++ merkle_root h cw
    root_temp := (st.root_temp * st.root_temp).tmod q
    challenge_hash_preimages := st.challenge_hash_preimages ++ [st.output]
    mts := st.mts ++ [cw] }

/-- The commit phase, iterated over the rounds. -/
def commit_loop (h : List Nat → List Nat) (q inv2 : Int) : Nat → CommitState → CommitState
  | 0, st => st
  | n + 1, st => commit_loop h q inv2 n (commit_step h q inv2 st)

/-- State of the prover's query phase. -/
structure QueryState where
  output : List Nat
  c_proofs : List (List PartialAuthenticationPath)
  ab_proofs : List (List PartialAuthenticationPath)
  root_temp : Int

/-- The query phase: per round, re-derive the query indices from the
index-picker snapshot, open both trees there and append the two
length-prefixed path serializations.  The `.unwrap()` of the sampler result is
a panic when the sampler returns `None`. -/
def query_loop (h : List Nat → List Nat) (ipp : List Nat) (s N : Nat)
    (mts : List (List Int)) (q : Int) : Nat → Nat → QueryState → PanicOr QueryState
  | _, 0, st => .value st
  | i, n + 1, st =>
    match get_abc_indices_internal h ipp i s N with
    | .panics => .panics
    | .value none => .panics
    | .value (some abc) =>
      let c_indices := abc.map (fun t => t.2.2)
      let ab_indices := abc.flatMap (fun t => [t.1, t.2.1])
      let authentication_paths_c := get_multi_proof (mts.getD (i + 1) []) c_indices
      let authentication_paths_ab := get_multi_proof (mts.getD i []) ab_indices
      let c_paths_encoded := encPaths authentication_paths_c
      let ab_paths_encoded := encPaths authentication_paths_ab
      query_loop h ipp s N mts q (i + 1) n
        { output := st.output ++ enc16 c_paths_encoded.length ++ c_paths_encoded ++
            enc16 ab_paths_encoded.length ++ ab_paths_encoded
          c_proofs := st.c_proofs ++ [authentication_paths_c]
          ab_proofs := st.ab_proofs ++ [authentication_paths_ab]
          root_temp := (st.root_temp * st.root_temp).tmod q }

/-- Embedding of `prover_bigint` (and of `prover_i128`, identical modulo `i128`
overflow): commit phase, index-picker snapshot, query phase, proof assembly. -/
def prover (h : List Nat → List Nat) (codeword : List Int) (modulus : Int)
    (max_degree : Nat) (s : Nat) (output : List Nat) (primitive_root_of_unity : Int) :
    PanicOr (List Nat × Except ProveError LowDegreeProof) :=
  match prover_shared h max_degree output codeword s primitive_root_of_unity with
  | .panics => .panics
  | .value (out, .error e) => .value (out, .error e)
  | .value (out, .ok (rounds_count, mts0, max_degree_of_last_round)) =>
    let inv2 := ((eea modulus 2).2.2 + modulus).tmod modulus
    let cst := commit_loop h modulus inv2 rounds_count
      { mut_codeword := codeword, output := out, root_temp := primitive_root_of_unity,
        challenge_hash_preimages := [], mts := mts0 }
    let index_picker_preimage := cst.output
    match query_loop h index_picker_preimage s codeword.length cst.mts modulus 0 rounds_count
        { output := cst.output, c_proofs := [], ab_proofs := [],
          root_temp := primitive_root_of_unity } with
    | .panics => .panics
    | .value qst =>
      .value (qst.output, .ok
        { ab_proofs := qst.ab_proofs
          challenge_hash_preimages := cst.challenge_hash_preimages
          codeword_size := codeword.length
          c_proofs := qst.c_proofs
          index_picker_preimage := index_picker_preimage
          max_degree := max_degree
          max_degree_of_last_round := max_degree_of_last_round
          merkle_roots := cst.mts.map (merkle_root h)
          primitive_root_of_unity := primitive_root_of_unity
          rounds_count := rounds_count
          s := s })

/-! ## The verifier -/

/-- The verifier's inner collinearity loop over the `s` samples of one round.
Indexing into the proof's path vectors panics when they are shorter than the
sampled index lists.  Returns the `a_x` values of the round. -/
def colin_loop (q challenge root : Int) (ab_indices : List Nat)
    (abp cp : List PartialAuthenticationPath) :
    Nat → Nat → List Int → PanicOr (Except ValidationError (List Int))
  | _, 0, axs => .value (.ok axs)
  | j, k + 1, axs =>
    let a_index := ab_indices.getD (2 * j) 0
    let a_x := mod_pow_raw root a_index q
    if 2 * j + 1 < abp.length ∧ j < cp.length then
      let a_y := (abp.getD (2 * j) default).value
      let b_index := ab_indices.getD (2 * j + 1) 0
      let b_x := mod_pow_raw root b_index q
      let b_y := (abp.getD (2 * j + 1) default).value
      let c_y := (cp.getD j default).value
      if are_colinear_raw q (a_x, a_y) (b_x, b_y) (challenge, c_y) then
        colin_loop q challenge root ab_indices abp cp (j + 1) k (axs ++ [a_x])
      else .value (.error .NotColinear)
    else .panics

/-- The verifier's loop over the rounds: re-derive the indices, check both
Merkle multi-proofs, then run the collinearity loop.  Accumulates the last
round's `c` values and `a_x` values for the final degree check. -/
def rounds_loop (h : List Nat → List Nat) (proof : LowDegreeProof) (q : Int)
    (challenges : List Int) :
    Nat → Nat → Int → List Int → List Int →
      PanicOr (Except ValidationError (List Int × List Int))
  | _, 0, _, c_values, last_a_xs => .value (.ok (c_values, last_a_xs))
  | i, k + 1, root, _, last_a_xs =>
    match get_abc_indices_internal h proof.index_picker_preimage i proof.s
        proof.codeword_size with
    | .panics => .panics
    | .value none => .panics
    | .value (some abc) =>
      let c_indices := abc.map (fun t => t.2.2)
      let ab_indices := abc.flatMap (fun t => [t.1, t.2.1])
      let cp := proof.c_proofs.getD i []
      let abp := proof.ab_proofs.getD i []
      let c_values := cp.map get_value
      if verify_multi_proof h (proof.merkle_roots.getD (i + 1) []) c_indices cp &&
          verify_multi_proof h (proof.merkle_roots.getD i []) ab_indices abp then
        match colin_loop q (challenges.getD i 0) root ab_indices abp cp 0 proof.s [] with
        | .panics => .panics
        | .value (.error e) => .value (.error e)
        | .value (.ok axs) =>
          rounds_loop h proof q challenges (i + 1) k ((root * root).tmod q) c_values
            (if i = proof.rounds_count - 1 then last_a_xs ++ axs else last_a_xs)
      else .value (.error .BadMerkleProof)

/-- The verifier's final degree check on the accumulated last-round values. -/
def final_check (q : Int) (max_degree_of_last_round : Nat)
    (c_values last_a_xs : List Int) : Except ValidationError Unit :=
  let c_points := (c_values.zip last_a_xs).map (fun p => (mod_pow_raw p.2 2 q, p.1))
  let last_polynomial := slow_lagrange_interpolation q c_points
  if c_values.isEmpty ∨ (max_degree_of_last_round : Int) < degree last_polynomial then
    .error .LastIterationTooHighDegree
  else .ok ()

/-- Embedding of `verify_bigint` (and of `verify_i128`, identical modulo the
`as u8` narrowing in the latter's cardinality comparisons): cardinality check,
challenge re-derivation, rounds loop, final interpolation check. -/
def verify (h : List Nat → List Nat) (proof : LowDegreeProof) (modulus : Int) :
    PanicOr (Except ValidationError Unit) :=
  if proof.rounds_count ≠ proof.ab_proofs.length ∨
      proof.rounds_count ≠ proof.c_proofs.length ∨
      proof.rounds_count ≠ proof.challenge_hash_preimages.length ∨
      proof.rounds_count + 1 ≠ proof.merkle_roots.length then
    .value (.error .BadSizedProof)
  else
    let challenges := proof.challenge_hash_preimages.map
      (fun bs => from_bytes_raw modulus ((digest32 h bs).take 16))
    match rounds_loop h proof modulus challenges 0 challenges.length
        proof.primitive_root_of_unity [] [] with
    | .panics => .panics
    | .value (.error e) => .value (.error e)
    | .value (.ok (c_values, last_a_xs)) =>
      .value (final_check modulus proof.max_degree_of_last_round c_values last_a_xs)

/-! ## Deserialization (`from_serialization`) -/

/-- Read the per-round pairs of length-prefixed path-vector serializations. -/
def pathsRounds (ser : List Nat) :
    Nat → Nat →
      PanicOr (Option (List (List PartialAuthenticationPath) ×
        List (List PartialAuthenticationPath) × Nat))
  | 0, idx => .value (some ([], [], idx))
  | n + 1, idx =>
    if ser.length < idx + 2 then .panics
    else
      let csize := decLE ((ser.drop idx).take 2)
      if ser.length < idx + 2 + csize then .panics
      else
        match decPaths ((ser.drop (idx + 2)).take csize) with
        | none => .value none
        | some c =>
          let idx2 := idx + 2 + csize
          if ser.length < idx2 + 2 then .panics
          else
            let asize := decLE ((ser.drop idx2).take 2)
            if ser.length < idx2 + 2 + asize then .panics
            else
              match decPaths ((ser.drop (idx2 + 2)).take asize) with
              | none => .value none
              | some ab =>
                match pathsRounds ser n (idx2 + 2 + asize) with
                | .panics => .panics
                | .value none => .value none
                | .value (some (cs, abL, fin)) => .value (some (c :: cs, ab :: abL, fin))

/-- Embedding of `LowDegreeProof::from_serialization`.  Out-of-range slicing of
the byte buffer is a panic; bincode failures are codec errors; a derived round
count below one is the `NonPostiveRoundCount` validation error. -/
def from_serialization (serialization : List Nat) (start_index : Nat) :
    PanicOr (Except DeserializationError (LowDegreeProof × Nat)) :=
  if serialization.length < start_index + 4 then .panics
  else
    let codeword_size := decLE ((serialization.drop start_index).take 4)
    let i1 := start_index + 4
    if serialization.length < i1 + 4 then .panics
    else
      let max_degree := decLE ((serialization.drop i1).take 4)
      let i2 := i1 + 4
      if serialization.length < i2 + 4 then .panics
      else
        let number_of_colinearity_checks := decLE ((serialization.drop i2).take 4)
        let i3 := i2 + 4
        if serialization.length < i3 + 2 then .panics
        else
          let size_of_root := decLE ((serialization.drop i3).take 2)
          let i4 := i3 + 2
          if serialization.length < i4 + size_of_root then .panics
          else
            match dec128 ((serialization.drop i4).take size_of_root) with
            | none => .value (.error .codec)
            | some primitive_root_of_unity =>
              let i5 := i4 + size_of_root
              match get_rounds_count codeword_size max_degree
                  number_of_colinearity_checks with
              | none => .panics
              | some (rounds_count, max_degree_of_last_round) =>
                if rounds_count < 1 then
                  .value (.error (.validation .NonPostiveRoundCount))
                else
                  if serialization.length < i5 + (rounds_count + 1) * 32 then .panics
                  else
                    let challenge_hash_preimages := (List.range rounds_count).map
                      (fun i => serialization.take ((i + 1) * 32 + i5))
                    let index_picker_preimage :=
                      serialization.take ((rounds_count + 1) * 32 + i5)
                    let merkle_roots := (List.range (rounds_count + 1)).map
                      (fun i => (serialization.drop (i5 + i * 32)).take 32)
                    let i6 := i5 + (rounds_count + 1) * 32
                    match pathsRounds serialization rounds_count i6 with
                    | .panics => .panics
                    | .value none => .value (.error .codec)
                    | .value (some (c_proofs, ab_proofs, i7)) =>
                      .value (.ok
                        ({ ab_proofs := ab_proofs
                           challenge_hash_preimages := challenge_hash_preimages
                           codeword_size := codeword_size
                           c_proofs := c_proofs
                           index_picker_preimage := index_picker_preimage
                           max_degree := max_degree
                           max_degree_of_last_round := max_degree_of_last_round
                           merkle_roots := merkle_roots
                           primitive_root_of_unity := primitive_root_of_unity
                           rounds_count := rounds_count
                           s := number_of_colinearity_checks }, i7))

/-! ## Arithmetic helper lemmas -/

theorem neg_tmod_eq (a b : Int) : (-a).tmod b = -(a.tmod b) := by
  rw [Int.tmod_def, Int.tmod_def, Int.neg_tdiv]
  ring

theorem tmod_bounds (v q : Int) (hq : 0 < q) : -q < v.tmod q ∧ v.tmod q < q := by
  refine ⟨?_, Int.tmod_lt_of_pos _ hq⟩
  rcases le_or_lt 0 v with hv | hv
  · have := Int.tmod_nonneg q hv
    omega
  · have h1 : (-v).tmod q < q := Int.tmod_lt_of_pos _ hq
    have h2 : (-v).tmod q = -(v.tmod q) := neg_tmod_eq v q
    omega

theorem tmod_emod (v q : Int) : v.tmod q % q = v % q := by
  have h : v.tmod q = v + q * (-v.tdiv q) := by
    rw [Int.tmod_def]
    ring
  rw [h, Int.add_mul_emod_self_left]

/-- The Rust idiom `(v % q + q) % q` produces the Euclidean remainder. -/
theorem tmodNorm (v q : Int) (hq : 0 < q) : (v.tmod q + q).tmod q = v % q := by
  have hb := tmod_bounds v q hq
  rw [Int.tmod_eq_emod (by omega) (le_of_lt hq)]
  have h : v.tmod q + q = v.tmod q + q * 1 := by ring
  rw [h, Int.add_mul_emod_self_left, tmod_emod]

theorem tmodNorm_nonneg (v q : Int) (hq : 0 < q) :
    0 ≤ (v.tmod q + q).tmod q ∧ (v.tmod q + q).tmod q < q := by
  rw [tmodNorm v q hq]
  exact ⟨Int.emod_nonneg v (by omega), Int.emod_lt_of_pos v hq⟩

/-- Squaring with the Rust `%` agrees with the Euclidean remainder on
nonnegative inputs. -/
theorem tmod_sq_eq (x q : Int) (hx : 0 ≤ x) (hq : 0 < q) :
    (x * x).tmod q = x * x % q :=
  Int.tmod_eq_emod (by positivity) (le_of_lt hq)

/-! ## Claim C5: parameter derivation -/

/-- C5 counterexample: at `(N, d, s) = (4, 1, 1000)` the expansion factor is
`ρ = 2 < s`, `missed = ⌈log₂⌈1000/2⌉⌉ = 9` exceeds the base round count
`⌈log₂ 2⌉ = 1`, so the claimed return value `(base − missed, 2^missed − 1)` is
negative in its first component and the `u8` subtraction underflows instead
(a debug-build panic, modelled by `none`): the function does not return the
claimed pair — it returns nothing at all. -/
theorem C5_parameter_derivation_counterexample :
    get_rounds_count 4 1 1000 = none ∧
    Nat.clog 2 (1 + 1) < Nat.clog 2 ((1000 + 4 / (1 + 1) - 1) / (4 / (1 + 1))) := by
  refine ⟨by decide, ?_⟩
  rw [← log_2_ceil_eq_clog, ← log_2_ceil_eq_clog]
  decide

/-- C5 (amended): for `d + 1` within `u32` range and `ρ = N / (d + 1)`,
`get_rounds_count` returns `(⌈log₂(d+1)⌉, 0)` when `ρ ≥ s`, and
`(⌈log₂(d+1)⌉ − missed, 2^missed − 1)` with `missed = ⌈log₂⌈s/ρ⌉⌉` when
`ρ < s` — provided additionally that `ρ ≥ 1` and `missed ≤ ⌈log₂(d+1)⌉` with
`missed < 32` (otherwise the `f64` division by zero, the `u8` subtraction or
the `u32` power overflows and the function panics instead). -/
theorem C5_parameter_derivation (N d s : Nat) (hd : d + 1 < 2 ^ 32) :
    (s ≤ N / (d + 1) → get_rounds_count N d s = some (Nat.clog 2 (d + 1), 0)) ∧
    (N / (d + 1) < s → 0 < N / (d + 1) →
      Nat.clog 2 ((s + N / (d + 1) - 1) / (N / (d + 1))) ≤ Nat.clog 2 (d + 1) →
      Nat.clog 2 ((s + N / (d + 1) - 1) / (N / (d + 1))) < 32 →
      get_rounds_count N d s =
        some (Nat.clog 2 (d + 1) - Nat.clog 2 ((s + N / (d + 1) - 1) / (N / (d + 1))),
          2 ^ Nat.clog 2 ((s + N / (d + 1) - 1) / (N / (d + 1))) - 1)) := by
  simp only [← log_2_ceil_eq_clog]
  unfold get_rounds_count
  rw [if_neg (by omega)]
  constructor
  · intro hs
    rw [if_neg (by omega)]
  · intro h1 h2 h3 h4
    rw [if_pos h1, if_neg (by omega), if_neg (by omega), if_neg (by omega)]

/-- C5 witness: the theorem applied at `(N, d, s) = (128, 7, 17)`, a vector
from the repository's own unit tests. -/
theorem C5_parameter_derivation_witness :
    get_rounds_count 128 7 17 =
      some (Nat.clog 2 (7 + 1) - Nat.clog 2 ((17 + 128 / (7 + 1) - 1) / (128 / (7 + 1))),
        2 ^ Nat.clog 2 ((17 + 128 / (7 + 1) - 1) / (128 / (7 + 1))) - 1) :=
  (C5_parameter_derivation 128 7 17 (by norm_num)).2 (by norm_num) (by norm_num)
    (by rw [← log_2_ceil_eq_clog, ← log_2_ceil_eq_clog]; decide)
    (by rw [← log_2_ceil_eq_clog]; decide)

/-! ## Claim C6: the index sampler -/

/-- C6: the sampler panics at `s = 256` for every hash function, preimage,
round and codeword size — the guard `num_locations > 0xFF` rejects exactly the
value its own panic message says is the maximum, before either the `M_r < s`
check or any sampling can happen. -/
theorem C6_sampler_panics_at_256 (h : List Nat → List Nat) (pre : List Nat) (r N : Nat) :
    get_abc_indices_internal h pre r 256 N = .panics := rfl

/-! ## Claim C10: prover error atomicity -/

/-- C10: `prover_shared` error atomicity is asymmetric.  On
`BadMaxDegreeValue` the caller's transcript is returned unchanged; on
`NonPostiveRoundCount` it has already been extended with the 14-byte header
(`codeword_size`, `max_degree`, `colinearity_checks`, `len_root`), the
root-of-unity serialization and the 32-byte first Merkle root. -/
theorem C10_prover_error_atomicity (h : List Nat → List Nat) (d : Nat)
    (output : List Nat) (codeword : List Int) (s : Nat) (ω : Int) :
    (∀ out, prover_shared h d output codeword s ω = .value (out, .error .BadMaxDegreeValue) →
      out = output) ∧
    (∀ out, prover_shared h d output codeword s ω =
        .value (out, .error .NonPostiveRoundCount) →
      out = output ++ enc32 codeword.length ++ enc32 d ++ enc32 s ++
          enc16 (enc128 ω).length ++ enc128 ω ++ merkle_root h codeword ∧
        (enc32 codeword.length ++ enc32 d ++ enc32 s ++ enc16 (enc128 ω).length).length = 14 ∧
        (merkle_root h codeword).length = 32) := by
  constructor
  · intro out hout
    unfold prover_shared at hout
    split at hout
    · exact absurd hout (by simp)
    · split at hout
      · simp only [PanicOr.value.injEq, Prod.mk.injEq] at hout
        exact hout.1.symm
      · split at hout
        · exact absurd hout (by simp)
        · split at hout <;> simp_all
  · intro out hout
    refine ⟨?_, by simp [encLE_length, enc32, enc16], digest32_length h _⟩
    unfold prover_shared at hout
    split at hout
    · exact absurd hout (by simp)
    · split at hout
      · simp_all
      · split at hout
        · exact absurd hout (by simp)
        · split at hout
          · simp only [PanicOr.value.injEq, Prod.mk.injEq] at hout
            simpa [List.append_assoc] using hout.1.symm
          · simp_all

/-- A trivial stand-in for the 32-byte hash: the constant empty output
(normalised by `digest32` to 32 zero bytes).  Used to instantiate witnesses. -/
def zeroHash : List Nat → List Nat := fun _ => []

/-! ## Claim C2: verifier totality -/

theorem pathsRounds_lengths (ser : List Nat) :
    ∀ (n idx : Nat) (cs abL : List (List PartialAuthenticationPath)) (fin : Nat),
      pathsRounds ser n idx = .value (some (cs, abL, fin)) →
      cs.length = n ∧ abL.length = n := by
  intro n
  induction n with
  | zero =>
      intro idx cs abL fin h
      simp only [pathsRounds, PanicOr.value.injEq, Option.some.injEq, Prod.mk.injEq] at h
      obtain ⟨h1, h2, -⟩ := h
      simp [← h1, ← h2]
  | succ n ih =>
      intro idx cs abL fin h
      unfold pathsRounds at h
      dsimp only at h
      repeat' split at h
      all_goals cases h
      rename_i cs' abL' fin' hrec
      have hih := ih _ _ _ _ hrec
      simp [hih.1, hih.2]

theorem colin_loop_error_cases (q ch root : Int) (abi : List Nat)
    (abp cp : List PartialAuthenticationPath) :
    ∀ (k j : Nat) (axs : List Int) (e : ValidationError),
      colin_loop q ch root abi abp cp j k axs = .value (.error e) → e = .NotColinear := by
  intro k
  induction k with
  | zero =>
      intro j axs e h
      simp [colin_loop] at h
  | succ k ih =>
      intro j axs e h
      unfold colin_loop at h
      dsimp only at h
      split at h
      · split at h
        · exact ih _ _ _ h
        · cases h
          rfl
      · exact absurd h (by simp)

theorem rounds_loop_error_cases (h : List Nat → List Nat) (proof : LowDegreeProof)
    (q : Int) (challenges : List Int) :
    ∀ (k i : Nat) (root : Int) (cv axs : List Int) (e : ValidationError),
      rounds_loop h proof q challenges i k root cv axs = .value (.error e) →
      e = .NotColinear ∨ e = .BadMerkleProof := by
  intro k
  induction k with
  | zero =>
      intro i root cv axs e hres
      simp [rounds_loop] at hres
  | succ k ih =>
      intro i root cv axs e hres
      unfold rounds_loop at hres
      dsimp only at hres
      split at hres
      · exact absurd hres (by simp)
      · exact absurd hres (by simp)
      · split at hres
        · split at hres
          · exact absurd hres (by simp)
          · rename_i e' heq
            cases hres
            left
            exact colin_loop_error_cases _ _ _ _ _ _ _ _ _ _ heq
          · exact ih _ _ _ _ _ hres
        · cases hres
          right
          rfl

/-- C2 counterexample: decoding the empty byte sequence panics (the slice
`serialization[0..4]` is out of bounds) instead of failing `BadSizedProof`. -/
theorem C2_totality_counterexample : from_serialization ([] : List Nat) 0 = .panics := by
  decide

/-- C2 (amended): decoding is not total — it panics on out-of-range input and
returns codec or `NonPostiveRoundCount` errors, never `BadSizedProof` — but
every proof that decoding does return is well-formed: its cardinalities match
the recomputed `rounds_count` (which is at least 1), so the verifier's
`BadSizedProof` check never fires on a decoded proof. -/
theorem C2_decode_wellformed (bytes : List Nat) (start : Nat) (p : LowDegreeProof)
    (i : Nat) (hdec : from_serialization bytes start = .value (.ok (p, i))) :
    p.ab_proofs.length = p.rounds_count ∧
    p.c_proofs.length = p.rounds_count ∧
    p.challenge_hash_preimages.length = p.rounds_count ∧
    p.merkle_roots.length = p.rounds_count + 1 ∧
    1 ≤ p.rounds_count ∧
    ∀ (h : List Nat → List Nat) (q : Int),
      verify h p q ≠ .value (.error .BadSizedProof) := by
  unfold from_serialization at hdec
  dsimp only at hdec
  repeat' split at hdec
  all_goals cases hdec
  rename_i hlen32 scrut csv abv hpr
  have hlens := pathsRounds_lengths _ _ _ _ _ _ hpr
  refine ⟨by simp [hlens.2], by simp [hlens.1], by simp, by simp, by simp; omega, ?_⟩
  intro hsh q hver
  unfold verify at hver
  rw [if_neg (by simp [hlens.1, hlens.2])] at hver
  dsimp only at hver
  split at hver
  · exact absurd hver (by simp)
  · rename_i e heq
    cases hver
    rcases rounds_loop_error_cases hsh _ q _ _ _ _ _ _ _ heq with h1 | h1 <;> cases h1
  · rename_i pr heq
    simp only [final_check] at hver
    split at hver <;> simp at hver

/-- The length-4 power-series codeword of scenario S1 (`q = 101`, `ω = 10`,
`P(x) = x`). -/
def cwS1 : List Int := [1, 10, 100, 91]

/-- The prover run of scenario S1 with the trivial hash. -/
def s1Run : PanicOr (List Nat × Except ProveError LowDegreeProof) :=
  prover zeroHash cwS1 101 1 2 [] 10

/-- The transcript emitted by the S1 run. -/
def s1Out : List Nat :=
  match s1Run with
  | .value (o, _) => o
  | _ => []

/-- The proof object emitted by the S1 run. -/
def s1Proof : LowDegreeProof :=
  match s1Run with
  | .value (_, .ok p) => p
  | _ => default

/-- The proof object recovered by decoding the S1 transcript. -/
def s1DecProof : LowDegreeProof :=
  match from_serialization s1Out 0 with
  | .value (.ok (p, _)) => p
  | _ => default

/-- The final read index reported by decoding the S1 transcript. -/
def s1DecIdx : Nat :=
  match from_serialization s1Out 0 with
  | .value (.ok (_, i)) => i
  | _ => 0

/-- C2 witness: the well-formedness theorem applied to the transcript of a
concrete honest prover run, decoded from index 0. -/
theorem C2_decode_wellformed_witness :
    from_serialization s1Out 0 = .value (.ok (s1DecProof, s1DecIdx)) ∧
    s1DecProof.ab_proofs.length = s1DecProof.rounds_count :=
  ⟨by decide, (C2_decode_wellformed s1Out 0 s1DecProof s1DecIdx (by decide)).1⟩

/-! ## Claim C7: FRI folding -/

theorem int_natAbs_toNat {x : Int} (hx : 0 ≤ x) : x.natAbs = x.toNat := by
  omega

/-- The second Bezout coefficient of `eea x q` is a modular inverse of `x` when
`x` and `q` are coprime. -/
theorem eea_inv (x q : Int) (hx : 0 ≤ x) (hq : 0 < q) (hg : Int.gcd x q = 1) :
    ((eea x q).2.1 * x) % q = 1 % q := by
  have hb := eea_bezout x.toNat q.toNat
  rw [Int.toNat_of_nonneg hx, Int.toNat_of_nonneg (le_of_lt hq)] at hb
  have hg' : Nat.gcd x.toNat q.toNat = 1 := by
    rw [Int.gcd_def, int_natAbs_toNat hx, int_natAbs_toNat (le_of_lt hq)] at hg
    exact hg
  rw [hg'] at hb
  have h1 : (eea x q).2.1 * x = 1 - (eea x q).2.2 * q := by
    push_cast at hb
    linarith
  rw [h1]
  have : (1 : Int) - (eea x q).2.2 * q = 1 + q * (-(eea x q).2.2) := by ring
  rw [this, Int.add_mul_emod_self_left]

/-- Coprimality to the modulus is preserved by powers and reduction. -/
theorem gcd_pow_emod (ω q : Int) (i : Nat) (hg : Int.gcd ω q = 1) :
    Int.gcd (ω ^ i % q) q = 1 := by
  have h1 : IsCoprime ω q := Int.isCoprime_iff_gcd_eq_one.mpr hg
  have h2 : IsCoprime (ω ^ i) q := h1.pow_left
  have h3 : IsCoprime (ω ^ i % q) q := by
    have heq : ω ^ i % q = ω ^ i + q * (-(ω ^ i / q)) := by
      rw [Int.emod_def]
      ring
    rw [heq]
    exact h2.add_mul_left_left _
  exact Int.isCoprime_iff_gcd_eq_one.mp h3

/-- Orders imply coprimality: if some positive power of `ω` is `1` modulo `q`,
then `ω` is invertible modulo `q`. -/
theorem gcd_one_of_pow_emod (ω q : Int) (n : Nat) (hn : 0 < n)
    (h : ω ^ n % q = 1 % q) : Int.gcd ω q = 1 := by
  have hdvd : q ∣ ω ^ n - 1 := by
    have h0 : (ω ^ n - 1) % q = 0 := by
      rw [Int.sub_emod, h, sub_self, Int.zero_emod]
    exact Int.dvd_of_emod_eq_zero h0
  have hg1 : (Int.gcd ω q : Int) ∣ ω := Int.gcd_dvd_left
  have hg2 : (Int.gcd ω q : Int) ∣ q := Int.gcd_dvd_right
  have hg3 : (Int.gcd ω q : Int) ∣ ω ^ n := dvd_pow hg1 (by omega)
  have hg4 : (Int.gcd ω q : Int) ∣ ω ^ n - 1 := hg2.trans hdvd
  have hg5 : (Int.gcd ω q : Int) ∣ 1 := by
    have := dvd_sub hg3 hg4
    simpa using this
  have hg6 : Int.gcd ω q ∣ 1 := by exact_mod_cast hg5
  exact Nat.dvd_one.mp hg6

theorem mul_emod_right_reduce (a b q : Int) : (a * (b % q)) % q = (a * b) % q := by
  conv_lhs => rw [Int.mul_emod]
  rw [Int.emod_emod_of_dvd _ dvd_rfl, ← Int.mul_emod]

theorem mul_emod_left_reduce (a b q : Int) : ((a % q) * b) % q = (a * b) % q := by
  rw [mul_comm, mul_emod_right_reduce, mul_comm]

theorem friLoop_length (cw : List Int) (β q inv2 ω : Int) :
    ∀ (count i : Nat) (x : Int), (friLoop cw β q inv2 ω i count x).length = count := by
  intro count
  induction count with
  | zero => intro i x; rfl
  | succ c ih => intro i x; simp [friLoop, ih]

/-- Entry `j` of the fold loop: the running `x` has the closed form
`x * ω^j % q` (or `x` itself for `j = 0`). -/
theorem friLoop_getD (cw : List Int) (β q inv2 ω : Int) (hq : 0 < q) (hω : 0 ≤ ω) :
    ∀ (count j i : Nat) (x : Int), j < count → 0 ≤ x →
      (friLoop cw β q inv2 ω i count x).getD j 0 =
        friEntry q β inv2 (if j = 0 then x else x * ω ^ j % q)
          (cw.getD (i + j) 0) (cw.getD (i + j + cw.length / 2) 0) := by
  intro count
  induction count with
  | zero => intro j i x hj; omega
  | succ c ih =>
      intro j i x hj hx
      cases j with
      | zero => simp [friLoop]
      | succ j' =>
          have hstep : friLoop cw β q inv2 ω i (c + 1) x =
              friEntry q β inv2 x (cw.getD i 0) (cw.getD (i + cw.length / 2) 0) ::
                friLoop cw β q inv2 ω (i + 1) c ((x * ω).tmod q) := rfl
          rw [hstep, List.getD_cons_succ]
          have hxω : (x * ω).tmod q = x * ω % q :=
            Int.tmod_eq_emod (by positivity) (le_of_lt hq)
          rw [ih j' (i + 1) ((x * ω).tmod q) (by omega) (by
            rw [hxω]
            exact Int.emod_nonneg _ (by omega))]
          have harg : (if j' = 0 then (x * ω).tmod q else (x * ω).tmod q * ω ^ j' % q) =
              x * ω ^ (j' + 1) % q := by
            by_cases hj0 : j' = 0
            · subst hj0
              simp [hxω]
            · rw [if_neg hj0, hxω, mul_emod_left_reduce, mul_assoc, ← pow_succ']
          rw [harg]
          have hidx : i + 1 + j' = i + (j' + 1) := by omega
          rw [hidx, if_neg (by omega)]

/-- Congruence of one folded entry: with `x ≡ ω^i` and `w` any modular inverse
of `ω^i mod q`, the entry is the claimed linear combination modulo `q`. -/
theorem friEntry_congruence (q β inv2 x ci cm w wx : Int) (hq : 0 < q) (hx : 0 ≤ x)
    (hxw : x % q = wx % q) (hg : Int.gcd wx q = 1) (hw : (w * (wx % q)) % q = 1 % q) :
    (friEntry q β inv2 x ci cm - ((1 + β * w) * ci + (1 - β * w) * cm) * inv2) % q
      = 0 := by
  have hgx : Int.gcd x q = 1 := by
    have h1 : IsCoprime wx q := Int.isCoprime_iff_gcd_eq_one.mpr hg
    have h2 : IsCoprime x q := by
      have heq : x = wx + (x - wx) := by ring
      have hdvd : q ∣ x - wx := by
        refine Int.dvd_of_emod_eq_zero ?_
        rw [Int.sub_emod, hxw, sub_self, Int.zero_emod]
      obtain ⟨k, hk⟩ := hdvd
      rw [heq, hk]
      have := h1.add_mul_left_left k
      simpa [mul_comm] using this
    exact Int.isCoprime_iff_gcd_eq_one.mp h2
  set u := (eea x q).2.1 with hu
  have hinv : (u * x) % q = 1 % q := eea_inv x q hx hq hgx
  -- u and w are both inverses of the same residue, hence congruent
  have hww : (w * x) % q = 1 % q := by
    calc (w * x) % q = (w * (x % q)) % q := (mul_emod_right_reduce w x q).symm
      _ = (w * (wx % q)) % q := by rw [hxw]
      _ = 1 % q := hw
  have huw : q ∣ u - w := by
    have h1 : ((u - w) * x) % q = 0 := by
      have : (u - w) * x = u * x - w * x := by ring
      rw [this, Int.sub_emod, hinv, hww, sub_self, Int.zero_emod]
    have h2 : q ∣ (u - w) * x := Int.dvd_of_emod_eq_zero h1
    have h3 : IsCoprime q x := Int.isCoprime_iff_gcd_eq_one.mpr (by
      rw [Int.gcd_comm]
      exact hgx)
    exact h3.dvd_of_dvd_mul_right h2
  obtain ⟨k, hk⟩ := huw
  -- the entry is the normalised big value; its difference with the claimed
  -- formula is a multiple of q
  unfold friEntry
  rw [tmodNorm _ q hq]
  set big := ((1 + β * u) * ci + (1 - β * u) * cm) * inv2 with hbig
  set frm := ((1 + β * w) * ci + (1 - β * w) * cm) * inv2 with hfrm
  have hd1 : q ∣ big % q - big := by
    refine Dvd.intro (big / q * (-1)) ?_
    have := Int.emod_def big q
    rw [this]
    ring
  have hd2 : q ∣ big - frm := by
    refine Dvd.intro (k * (β * (ci - cm)) * inv2) ?_
    rw [hbig, hfrm]
    have : big - frm = β * (u - w) * (ci - cm) * inv2 := by
      rw [hbig, hfrm]
      ring
    rw [← hbig, ← hfrm, this, hk]
    ring
  have hd : q ∣ big % q - frm := by
    have : big % q - frm = (big % q - big) + (big - frm) := by ring
    rw [this]
    exact dvd_add hd1 hd2
  exact Int.emod_eq_zero_of_dvd hd

/-- The range of one folded entry. -/
theorem friEntry_range (q β inv2 x ci cm : Int) (hq : 0 < q) :
    0 ≤ friEntry q β inv2 x ci cm ∧ friEntry q β inv2 x ci cm < q :=
  tmodNorm_nonneg _ q hq

/-- C7: FRI folding.  For a codeword of even length `2M`, a working root of
order dividing `2M`, and any modular inverse `w` of `ω^i mod q`, the `i`-th
folded entry lies in `[0, q)` and is congruent to
`((1 + β·w)·C[i] + (1 − β·w)·C[i+M])·inv2` modulo `q`; the folded codeword has
length `M`. -/
theorem C7_fri_folding (cw : List Int) (β q inv2 ω : Int) (M : Nat)
    (hlen : cw.length = 2 * M) (hq : 0 < q) (hω0 : 0 ≤ ω)
    (horder : ω ^ (2 * M) % q = 1 % q) (hM : 0 < M) :
    (fri_prover_iteration cw β q inv2 ω).length = M ∧
    ∀ i, i < M → ∀ w : Int, (w * (ω ^ i % q)) % q = 1 % q →
      0 ≤ (fri_prover_iteration cw β q inv2 ω).getD i 0 ∧
      (fri_prover_iteration cw β q inv2 ω).getD i 0 < q ∧
      ((fri_prover_iteration cw β q inv2 ω).getD i 0 -
        ((1 + β * w) * cw.getD i 0 + (1 - β * w) * cw.getD (i + M) 0) * inv2) % q
        = 0 := by
  have hgcd : Int.gcd ω q = 1 := gcd_one_of_pow_emod ω q (2 * M) (by omega) horder
  have hM2 : cw.length / 2 = M := by omega
  constructor
  · rw [fri_prover_iteration, friLoop_length, hM2]
  · intro i hi w hw
    have hget := friLoop_getD cw β q inv2 ω hq hω0 (cw.length / 2) i 0 1
      (by omega) (by norm_num)
    rw [fri_prover_iteration, hget]
    have hzero : (0 : Nat) + i = i := by omega
    rw [hzero, hM2]
    set x : Int := if i = 0 then (1 : Int) else 1 * ω ^ i % q with hx
    have hx0 : 0 ≤ x := by
      rw [hx]
      by_cases h0 : i = 0
      · simp [h0]
      · rw [if_neg h0]
        exact Int.emod_nonneg _ (by omega)
    have hxeq : x % q = ω ^ i % q := by
      rw [hx]
      by_cases h0 : i = 0
      · simp [h0]
      · rw [if_neg h0, one_mul, Int.emod_emod_of_dvd _ dvd_rfl]
    have hgpow : Int.gcd (ω ^ i) q = 1 :=
      Int.isCoprime_iff_gcd_eq_one.mp ((Int.isCoprime_iff_gcd_eq_one.mpr hgcd).pow_left)
    refine ⟨(friEntry_range q β inv2 x _ _ hq).1, (friEntry_range q β inv2 x _ _ hq).2, ?_⟩
    exact friEntry_congruence q β inv2 x _ _ w (ω ^ i) hq hx0 hxeq hgpow hw

/-- C7 witness: the theorem applied at `q = 5`, `ω = 2` (of order 4), `β = 3`,
`inv2 = 3`, codeword `[1, 2, 3, 4]`, sample `i = 1` with inverse `w = 3`. -/
theorem C7_fri_folding_witness :
    0 ≤ (fri_prover_iteration [1, 2, 3, 4] 3 5 3 2).getD 1 0 ∧
    (fri_prover_iteration [1, 2, 3, 4] 3 5 3 2).getD 1 0 < 5 ∧
    ((fri_prover_iteration [1, 2, 3, 4] 3 5 3 2).getD 1 0 -
      ((1 + 3 * 3) * ([1, 2, 3, 4] : List Int).getD 1 0 +
        (1 - 3 * 3) * ([1, 2, 3, 4] : List Int).getD (1 + 2) 0) * 3) % 5 = 0 :=
  (C7_fri_folding [1, 2, 3, 4] 3 5 3 2 2 (by decide) (by decide) (by decide)
    (by decide) (by decide)).2 1 (by decide) 3 (by decide)

/-! ## Structural lemmas about the prover -/

/-- The header bytes emitted by `prover_shared` before the first Merkle root. -/
def headerBytes (cw : List Int) (d s : Nat) (ω : Int) : List Nat :=
  enc32 cw.length ++ enc32 d ++ enc32 s ++ enc16 (enc128 ω).length ++ enc128 ω

theorem headerBytes_length (cw : List Int) (d s : Nat) (ω : Int) :
    (headerBytes cw d s ω).length = 30 := by
  simp [headerBytes, enc32, enc16, encLE_length, enc128_length]

theorem prover_shared_ok {h : List Nat → List Nat} {d : Nat} {out0 : List Nat}
    {cw : List Int} {s : Nat} {ω : Int} {out1 : List Nat} {rc : Nat}
    {mts0 : List (List Int)} {mdlr : Nat}
    (hp : prover_shared h d out0 cw s ω = .value (out1, .ok (rc, mts0, mdlr))) :
    out1 = out0 ++ headerBytes cw d s ω ++ merkle_root h cw ∧
    mts0 = [cw] ∧
    get_rounds_count cw.length d s = some (rc, mdlr) ∧
    1 ≤ rc ∧ d + 1 < 2 ^ 32 ∧ (d + 1) &&& d = 0 := by
  unfold prover_shared at hp
  dsimp only at hp
  repeat' split at hp
  all_goals cases hp
  refine ⟨by simp [headerBytes, List.append_assoc], rfl, by assumption, by omega, by omega,
    by simp_all⟩

theorem commit_step_output_extends (h : List Nat → List Nat) (q inv2 : Int)
    (st : CommitState) : st.output <+: (commit_step h q inv2 st).output :=
  List.prefix_append _ _

theorem commit_loop_output_mono (h : List Nat → List Nat) (q inv2 : Int) :
    ∀ (n : Nat) (st : CommitState),
      st.output <+: (commit_loop h q inv2 n st).output := by
  intro n
  induction n with
  | zero => intro st; exact List.prefix_rfl
  | succ n ih =>
      intro st
      exact (commit_step_output_extends h q inv2 st).trans (ih (commit_step h q inv2 st))

theorem query_loop_output_mono (h : List Nat → List Nat) (ipp : List Nat) (s N : Nat)
    (mts : List (List Int)) (q : Int) :
    ∀ (n i : Nat) (st qst : QueryState),
      query_loop h ipp s N mts q i n st = .value qst →
      st.output <+: qst.output := by
  intro n
  induction n with
  | zero =>
      intro i st qst hq
      simp only [query_loop, PanicOr.value.injEq] at hq
      rw [← hq]
  | succ n ih =>
      intro i st qst hq
      unfold query_loop at hq
      dsimp only at hq
      split at hq
      · exact absurd hq (by simp)
      · exact absurd hq (by simp)
      · refine List.IsPrefix.trans ?_ (ih _ _ _ hq)
        exact (((List.prefix_append _ _).trans (List.prefix_append _ _)).trans
          (List.prefix_append _ _)).trans (List.prefix_append _ _)

/-- Inversion of a successful prover run into its phases. -/
theorem prover_ok_destruct {h : List Nat → List Nat} {cw : List Int} {q : Int}
    {d s : Nat} {out0 : List Nat} {ω : Int} {o : List Nat} {p : LowDegreeProof}
    (hp : prover h cw q d s out0 ω = .value (o, .ok p)) :
    ∃ (out1 : List Nat) (rc mdlr : Nat) (qst : QueryState),
      prover_shared h d out0 cw s ω = .value (out1, .ok (rc, [cw], mdlr)) ∧
      (query_loop h
        (commit_loop h q (((eea q 2).2.2 + q).tmod q) rc
          { mut_codeword := cw, output := out1, root_temp := ω,
            challenge_hash_preimages := [], mts := [cw] }).output s cw.length
        (commit_loop h q (((eea q 2).2.2 + q).tmod q) rc
          { mut_codeword := cw, output := out1, root_temp := ω,
            challenge_hash_preimages := [], mts := [cw] }).mts q 0 rc
        { output := (commit_loop h q (((eea q 2).2.2 + q).tmod q) rc
            { mut_codeword := cw, output := out1, root_temp := ω,
              challenge_hash_preimages := [], mts := [cw] }).output,
          c_proofs := [], ab_proofs := [], root_temp := ω } = .value qst) ∧
      o = qst.output ∧
      p = { ab_proofs := qst.ab_proofs
            challenge_hash_preimages := (commit_loop h q (((eea q 2).2.2 + q).tmod q) rc
              { mut_codeword := cw, output := out1, root_temp := ω,
                challenge_hash_preimages := [], mts := [cw] }).challenge_hash_preimages
            codeword_size := cw.length
            c_proofs := qst.c_proofs
            index_picker_preimage := (commit_loop h q (((eea q 2).2.2 + q).tmod q) rc
              { mut_codeword := cw, output := out1, root_temp := ω,
                challenge_hash_preimages := [], mts := [cw] }).output
            max_degree := d
            max_degree_of_last_round := mdlr
            merkle_roots := (commit_loop h q (((eea q 2).2.2 + q).tmod q) rc
              { mut_codeword := cw, output := out1, root_temp := ω,
                challenge_hash_preimages := [], mts := [cw] }).mts.map (merkle_root h)
            primitive_root_of_unity := ω
            rounds_count := rc
            s := s } := by
  unfold prover at hp
  split at hp
  · exact absurd hp (by simp)
  · exact absurd hp (by simp)
  · rename_i out1 rc mts0 mdlr hps
    dsimp only at hp
    split at hp
    · exact absurd hp (by simp)
    · rename_i qst hq
      cases hp
      have hmts : mts0 = [cw] := (prover_shared_ok hps).2.1
      subst hmts
      exact ⟨out1, rc, mdlr, qst, hps, hq, rfl, rfl⟩

/-! ## Claim C3: transcript-prefix independence -/

/-- A content-sensitive stand-in hash, used to separate transcripts that differ
only in their prefix. -/
def mixHash (bs : List Nat) : List Nat :=
  [bs.foldl (fun a b => (a + b) % 256) 0, bs.length % 256,
    bs.foldl (fun a b => (a * 3 + b) % 251) 7]

/-- The bytes appended by the S1 prover run started on the empty transcript. -/
def c3SufA : List Nat :=
  match prover mixHash cwS1 101 1 2 [] 10 with
  | .value (o, .ok _) => o
  | _ => []

/-- The bytes appended by the S1 prover run started on the transcript `[0]`. -/
def c3SufB : List Nat :=
  match prover mixHash cwS1 101 1 2 [0] 10 with
  | .value (o, .ok _) => o.drop 1
  | _ => []

/-- C3 counterexample: two successful prover runs on the same inputs whose
initial transcripts differ only by a prepended byte append different byte
suffixes — every round challenge hashes the whole buffer, prefix included, so
the folded codewords and all later bytes diverge. -/
theorem C3_transcript_prefix_counterexample :
    (match prover mixHash cwS1 101 1 2 [] 10 with
      | .value (_, .ok _) => true
      | _ => false) = true ∧
    (match prover mixHash cwS1 101 1 2 [0] 10 with
      | .value (_, .ok _) => true
      | _ => false) = true ∧
    c3SufA ≠ c3SufB := ⟨by decide, by decide, by decide⟩

/-- C3 (amended): only the first `14 + |enc(ω)| + 32` appended bytes — the
fixed header and the first Merkle root, which are emitted before any hashing —
are independent of the initial transcript contents; they coincide between a run
started on `out0` and a run started on `out0 ++ ext`, and equal the header
bytes followed by the root of the initial codeword. -/
theorem C3_transcript_prefix_header (h : List Nat → List Nat) (cw : List Int) (q : Int)
    (d s : Nat) (out0 ext : List Nat) (ω : Int) (oA oB : List Nat)
    (pA pB : LowDegreeProof)
    (hA : prover h cw q d s out0 ω = .value (oA, .ok pA))
    (hB : prover h cw q d s (out0 ++ ext) ω = .value (oB, .ok pB)) :
    (oA.drop out0.length).take (14 + (enc128 ω).length + 32) =
      (oB.drop (out0.length + ext.length)).take (14 + (enc128 ω).length + 32) ∧
    (oA.drop out0.length).take (14 + (enc128 ω).length + 32) =
      headerBytes cw d s ω ++ merkle_root h cw := by
  have hsplit : ∀ (o0 o : List Nat) (p : LowDegreeProof),
      prover h cw q d s o0 ω = .value (o, .ok p) →
      (o.drop o0.length).take (14 + (enc128 ω).length + 32) =
        headerBytes cw d s ω ++ merkle_root h cw := by
    intro o0 o p hp
    obtain ⟨out1, rc, mdlr, qst, hps, hq, ho, -⟩ := prover_ok_destruct hp
    have hout1 := (prover_shared_ok hps).1
    have hcpre := commit_loop_output_mono h q (((eea q 2).2.2 + q).tmod q) rc
      { mut_codeword := cw, output := out1, root_temp := ω,
        challenge_hash_preimages := [], mts := [cw] }
    have hqpre := query_loop_output_mono h _ s cw.length _ q rc 0 _ _ hq
    obtain ⟨t1, ht1⟩ := hcpre
    obtain ⟨t2, ht2⟩ := hqpre
    have ho' : o = o0 ++ ((headerBytes cw d s ω ++ merkle_root h cw ++ t1) ++ t2) := by
      rw [ho, ← ht2]
      show (commit_loop h q (((eea q 2).2.2 + q).tmod q) rc
        { mut_codeword := cw, output := out1, root_temp := ω,
          challenge_hash_preimages := [], mts := [cw] }).output ++ t2 = _
      rw [← ht1]
      show out1 ++ t1 ++ t2 = _
      rw [hout1]
      simp [List.append_assoc]
    rw [ho', List.drop_left]
    have hlen : (headerBytes cw d s ω ++ merkle_root h cw).length =
        14 + (enc128 ω).length + 32 := by
      simp [headerBytes_length, merkle_root, digest32_length, enc128_length]
    rw [← hlen, List.append_assoc, List.take_left]
  have h1 := hsplit out0 oA pA hA
  have h2 := hsplit (out0 ++ ext) oB pB hB
  rw [List.length_append] at h2
  exact ⟨h1.trans h2.symm, h1⟩

/-- The S1 prover run started on the transcript `[0]`, trivial hash. -/
def s1RunExt : PanicOr (List Nat × Except ProveError LowDegreeProof) :=
  prover zeroHash cwS1 101 1 2 [0] 10

/-- The transcript emitted by the extended-prefix S1 run. -/
def s1OutExt : List Nat :=
  match s1RunExt with
  | .value (o, _) => o
  | _ => []

/-- The proof object emitted by the extended-prefix S1 run. -/
def s1ProofExt : LowDegreeProof :=
  match s1RunExt with
  | .value (_, .ok p) => p
  | _ => default

/-- C3 witness: the amended theorem applied to two concrete S1 runs whose
initial transcripts are `[]` and `[0]`. -/
theorem C3_transcript_prefix_header_witness :
    (s1Out.drop 0).take (14 + (enc128 10).length + 32) =
      (s1OutExt.drop 1).take (14 + (enc128 10).length + 32) :=
  (C3_transcript_prefix_header zeroHash cwS1 101 1 2 [] [0] 10 s1Out s1OutExt
    s1Proof s1ProofExt (by decide) (by decide)).1

/-! ## Claim C9: s = 0 breaks completeness -/

/-- With zero locations requested the sampler immediately returns the empty
index list (for the rounds the pipeline can reach). -/
theorem sampler_zero (h : List Nat → List Nat) (pre : List Nat) (r N : Nat)
    (hr : r < 63) :
    get_abc_indices_internal h pre r 0 N = .value (some []) := by
  unfold get_abc_indices_internal
  rw [if_neg (by omega), if_neg (by omega)]
  dsimp only
  rw [if_neg (Nat.not_lt_zero _), if_neg (Nat.not_lt_zero _)]
  rfl

/-- Every successful round count is at most 32. -/
theorem get_rounds_count_rc_le32 {N d s rc mdlr : Nat}
    (h : get_rounds_count N d s = some (rc, mdlr)) : rc ≤ 32 := by
  unfold get_rounds_count at h
  dsimp only at h
  repeat' split at h
  all_goals cases h
  all_goals
    (have hbase : log_2_ceil (d + 1) ≤ 32 := by
      rw [log_2_ceil_eq_clog]
      exact (Nat.le_pow_iff_clog_le (by norm_num)).mp (by omega)
     omega)

theorem commit_loop_preimages_length (h : List Nat → List Nat) (q inv2 : Int) :
    ∀ (n : Nat) (st : CommitState),
      (commit_loop h q inv2 n st).challenge_hash_preimages.length =
        st.challenge_hash_preimages.length + n := by
  intro n
  induction n with
  | zero => intro st; rfl
  | succ n ih =>
      intro st
      show (commit_loop h q inv2 n (commit_step h q inv2 st)).challenge_hash_preimages.length = _
      rw [ih]
      simp [commit_step]
      omega

theorem commit_loop_mts_length (h : List Nat → List Nat) (q inv2 : Int) :
    ∀ (n : Nat) (st : CommitState),
      (commit_loop h q inv2 n st).mts.length = st.mts.length + n := by
  intro n
  induction n with
  | zero => intro st; rfl
  | succ n ih =>
      intro st
      show (commit_loop h q inv2 n (commit_step h q inv2 st)).mts.length = _
      rw [ih]
      simp [commit_step]
      omega

/-- With `s = 0`, a successful query phase appends one empty path vector per
round on each side. -/
theorem query_loop_s0_proofs (h : List Nat → List Nat) (ipp : List Nat) (N : Nat)
    (mts : List (List Int)) (q : Int) :
    ∀ (n i : Nat) (st qst : QueryState), i + n ≤ 63 →
      query_loop h ipp 0 N mts q i n st = .value qst →
      qst.c_proofs = st.c_proofs ++ List.replicate n [] ∧
      qst.ab_proofs = st.ab_proofs ++ List.replicate n [] := by
  intro n
  induction n with
  | zero =>
      intro i st qst hi hq
      simp only [query_loop, PanicOr.value.injEq] at hq
      simp [← hq]
  | succ n ih =>
      intro i st qst hi hq
      unfold query_loop at hq
      rw [sampler_zero h ipp i N (by omega)] at hq
      dsimp only at hq
      have hrec := ih (i + 1) _ _ (by omega) hq
      simp only [List.map_nil, List.flatMap_nil, get_multi_proof] at hrec
      rw [hrec.1, hrec.2]
      constructor <;>
        · simp [List.replicate_succ, get_multi_proof]

/-- The verifier's rounds loop on a proof with `s = 0` and empty path vectors
runs to completion and ends with an empty `c_values` accumulator. -/
theorem rounds_loop_s0 (h : List Nat → List Nat) (p : LowDegreeProof) (q : Int)
    (challenges : List Int) (hs : p.s = 0)
    (hc : ∀ j, p.c_proofs.getD j [] = ([] : List PartialAuthenticationPath))
    (hab : ∀ j, p.ab_proofs.getD j [] = ([] : List PartialAuthenticationPath)) :
    ∀ (k i : Nat) (root : Int) (cv axs : List Int), 1 ≤ k → i + k ≤ 63 →
      rounds_loop h p q challenges i k root cv axs = .value (.ok ([], axs)) := by
  intro k
  induction k with
  | zero => omega
  | succ k ih =>
      intro i root cv axs hk hi
      unfold rounds_loop
      rw [hs, sampler_zero h p.index_picker_preimage i p.codeword_size (by omega)]
      dsimp only
      rw [hc i, hab i]
      have hmt : ∀ r : List Nat, verify_multi_proof h r ([] : List Nat)
          ([] : List PartialAuthenticationPath) = true := fun r => rfl
      have hcl : colin_loop q (challenges.getD i 0) root [] [] [] 0 0 [] =
          .value (.ok []) := rfl
      simp only [List.flatMap_nil, List.map_nil, hmt, hcl, Bool.and_self, if_true]
      show rounds_loop h p q challenges (i + 1) k ((root * root).tmod q) []
        (if i = p.rounds_count - 1 then axs ++ [] else axs) = _
      have haxs : (if i = p.rounds_count - 1 then axs ++ [] else axs) = axs := by
        split <;> simp
      rw [haxs]
      cases k with
      | zero => rfl
      | succ k' => exact ih (i + 1) _ _ _ (by omega) (by omega)

/-- C9: with `s = 0` colinearity checks the prover can succeed, but the
verifier then never accepts: the per-round sample lists are empty, `c_values`
is empty at the final check, and verification fails with
`LastIterationTooHighDegree`. -/
theorem C9_zero_checks_incompleteness (h : List Nat → List Nat) (cw : List Int)
    (q : Int) (d : Nat) (out0 : List Nat) (ω : Int) (o : List Nat)
    (p : LowDegreeProof) (hp : prover h cw q d 0 out0 ω = .value (o, .ok p)) :
    verify h p q = .value (.error .LastIterationTooHighDegree) := by
  obtain ⟨out1, rc, mdlr, qst, hps, hq, ho, hpdef⟩ := prover_ok_destruct hp
  obtain ⟨-, -, hgrc, hrc1, -, -⟩ := prover_shared_ok hps
  have hrc32 : rc ≤ 32 := get_rounds_count_rc_le32 hgrc
  have hqpaths := query_loop_s0_proofs h _ cw.length _ q rc 0 _ _ (by omega) hq
  have hprelen := commit_loop_preimages_length h q (((eea q 2).2.2 + q).tmod q) rc
    { mut_codeword := cw, output := out1, root_temp := ω,
      challenge_hash_preimages := [], mts := [cw] }
  have hmtslen := commit_loop_mts_length h q (((eea q 2).2.2 + q).tmod q) rc
    { mut_codeword := cw, output := out1, root_temp := ω,
      challenge_hash_preimages := [], mts := [cw] }
  simp only [List.nil_append] at hqpaths
  have hs0 : p.s = 0 := by rw [hpdef]
  have hrcp : p.rounds_count = rc := by rw [hpdef]
  have habp : p.ab_proofs = List.replicate rc [] := by rw [hpdef]; exact hqpaths.2
  have hcp : p.c_proofs = List.replicate rc [] := by rw [hpdef]; exact hqpaths.1
  have hpre : p.challenge_hash_preimages.length = rc := by
    rw [hpdef]
    simpa using hprelen
  have hroots : p.merkle_roots.length = rc + 1 := by
    rw [hpdef]
    simp only []
    rw [List.length_map, hmtslen]
    simp only [List.length_singleton]
    omega
  unfold verify
  rw [if_neg (by
    simp only [habp, hcp, hroots, hrcp, hpre, List.length_replicate]
    omega)]
  dsimp only
  simp only [List.length_map]
  rw [hpre, rounds_loop_s0 h p q _ hs0
    (by intro j; rw [hcp]; by_cases hj : j < rc <;> simp [hj])
    (by intro j; rw [habp]; by_cases hj : j < rc <;> simp [hj])
    rc 0 p.primitive_root_of_unity [] [] (by omega) (by omega)]
  rfl

/-- The prover run of S1 with zero colinearity checks. -/
def s1RunZero : PanicOr (List Nat × Except ProveError LowDegreeProof) :=
  prover zeroHash cwS1 101 1 0 [] 10

/-- The proof object produced with zero colinearity checks. -/
def s1ProofZero : LowDegreeProof :=
  match s1RunZero with
  | .value (_, .ok p) => p
  | _ => default

/-- The transcript produced with zero colinearity checks. -/
def s1OutZero : List Nat :=
  match s1RunZero with
  | .value (o, _) => o
  | _ => []

/-- C9 witness: on the concrete S1 instance with `s = 0` the prover succeeds
and the verifier rejects with `LastIterationTooHighDegree`. -/
theorem C9_zero_checks_incompleteness_witness :
    verify zeroHash s1ProofZero 101 = .value (.error .LastIterationTooHighDegree) :=
  C9_zero_checks_incompleteness zeroHash cwS1 101 1 [] 10 s1OutZero s1ProofZero
    (by decide)

/-! ## Claim C8: the final degree check -/

/-- Claim C8: for every proof that passes the cardinality check and whose rounds
loop (re-derived indices, Merkle multi-proof checks and collinearity checks)
succeeds with accumulated last-round values `c_values` and `last_a_xs`, the
verifier returns `LastIterationTooHighDegree` exactly when there are zero points
to interpolate or the Lagrange interpolant through the points
`(last_a_x_j ^ 2 mod q, last_c_y_j)` has degree greater than
`max_degree_of_last_round`; otherwise it returns `Ok(())`. -/
theorem C8_final_degree_check (h : List Nat → List Nat) (p : LowDegreeProof) (q : Int)
    (c_values last_a_xs : List Int)
    (hcard : ¬(p.rounds_count ≠ p.ab_proofs.length ∨
      p.rounds_count ≠ p.c_proofs.length ∨
      p.rounds_count ≠ p.challenge_hash_preimages.length ∨
      p.rounds_count + 1 ≠ p.merkle_roots.length))
    (hrounds : rounds_loop h p q
        (p.challenge_hash_preimages.map
          (fun bs => from_bytes_raw q ((digest32 h bs).take 16))) 0
        (p.challenge_hash_preimages.map
          (fun bs => from_bytes_raw q ((digest32 h bs).take 16))).length
        p.primitive_root_of_unity [] [] = .value (.ok (c_values, last_a_xs))) :
    (verify h p q = .value (.error .LastIterationTooHighDegree) ↔
      (c_values = [] ∨ (p.max_degree_of_last_round : Int) <
        degree (slow_lagrange_interpolation q
          ((c_values.zip last_a_xs).map (fun pr => (mod_pow_raw pr.2 2 q, pr.1)))))) ∧
    (verify h p q = .value (.ok ()) ↔
      ¬(c_values = [] ∨ (p.max_degree_of_last_round : Int) <
        degree (slow_lagrange_interpolation q
          ((c_values.zip last_a_xs).map (fun pr => (mod_pow_raw pr.2 2 q, pr.1)))))) := by
  unfold verify
  rw [if_neg hcard]
  dsimp only
  rw [hrounds]
  unfold final_check
  dsimp only
  split
  next hcond =>
    simp only [List.isEmpty_iff] at hcond
    refine ⟨⟨fun _ => hcond, fun _ => rfl⟩, ⟨fun hv => ?_, fun hn => absurd hcond hn⟩⟩
    simp at hv
  next hcond =>
    simp only [List.isEmpty_iff] at hcond
    refine ⟨⟨fun hv => ?_, fun hc => absurd hc hcond⟩, ⟨fun _ => hcond, fun _ => rfl⟩⟩
    simp at hv

/-- The challenges the verifier re-derives on the concrete S1 proof. -/
def s1Challenges : List Int :=
  s1Proof.challenge_hash_preimages.map
    (fun bs => from_bytes_raw 101 ((digest32 zeroHash bs).take 16))

/-- The rounds-loop outcome on the concrete S1 proof. -/
def s1Rounds : PanicOr (Except ValidationError (List Int × List Int)) :=
  rounds_loop zeroHash s1Proof 101 s1Challenges 0 s1Challenges.length
    s1Proof.primitive_root_of_unity [] []

/-- The last-round `c` values accumulated by the rounds loop on S1. -/
def s1CV : List Int :=
  match s1Rounds with
  | .value (.ok pr) => pr.1
  | _ => []

/-- The last-round `a_x` values accumulated by the rounds loop on S1. -/
def s1AX : List Int :=
  match s1Rounds with
  | .value (.ok pr) => pr.2
  | _ => []

/-- C8 witness: the concrete S1 proof passes the cardinality check, its rounds
loop succeeds, and the interpolant through its last-round points is of low
enough degree, so the verifier accepts. -/
theorem C8_final_degree_check_witness :
    verify zeroHash s1Proof 101 = .value (.ok ()) :=
  (C8_final_degree_check zeroHash s1Proof 101 s1CV s1AX (by decide)
    (by decide)).2.mpr (by decide)

/-- C10 witness: at `(d, s) = (0, 1)` on a length-4 codeword the prover fails
with `NonPostiveRoundCount` and the transcript `[7]` has been extended with
exactly the header, root serialization and first Merkle root. -/
theorem C10_prover_error_atomicity_witness :
    prover_shared zeroHash 0 [7] cwS1 1 10 =
      .value ([7] ++ enc32 cwS1.length ++ enc32 0 ++ enc32 1 ++
        enc16 (enc128 10).length ++ enc128 10 ++ merkle_root zeroHash cwS1,
        .error .NonPostiveRoundCount) := by
  have h := (C10_prover_error_atomicity zeroHash 0 [7] cwS1 1 10).2
  have hrun : ∀ out, prover_shared zeroHash 0 [7] cwS1 1 10 =
      .value (out, .error .NonPostiveRoundCount) → out = [7] ++ enc32 cwS1.length ++
        enc32 0 ++ enc32 1 ++ enc16 (enc128 10).length ++ enc128 10 ++
        merkle_root zeroHash cwS1 := fun out hout => (h out hout).1
  have hconc : prover_shared zeroHash 0 [7] cwS1 1 10 =
      .value ((match prover_shared zeroHash 0 [7] cwS1 1 10 with
        | .value (o, _) => o
        | _ => []), .error .NonPostiveRoundCount) := by decide
  rw [hconc, hrun _ hconc]

/-! ## Claim C4: codec round-trip -/

/-- The well-formedness a path needs for its serialization to decode back:
value and leaves inside the `i128`-nonnegative range, leaf count inside `u32`. -/
def pathWF (p : PartialAuthenticationPath) : Prop :=
  0 ≤ p.value ∧ p.value < 2 ^ 127 ∧ p.leaves.length < 2 ^ 32 ∧
    ∀ v ∈ p.leaves, 0 ≤ v ∧ v < 2 ^ 127

instance (p : PartialAuthenticationPath) : Decidable (pathWF p) := by
  unfold pathWF; infer_instance

theorem encPath_length (p : PartialAuthenticationPath) :
    (encPath p).length = 20 + 16 * p.leaves.length := by
  simp [encPath, enc32, encLE_length, enc128_length, encLeaves,
    List.length_flatten, List.map_map, Function.comp]
  induction p.leaves with
  | nil => rfl
  | cons v l ih => simp [enc128_length, ih]; omega

theorem encPaths_length_lower (ps : List PartialAuthenticationPath) :
    2 + ps.length ≤ (encPaths ps).length := by
  simp only [encPaths, List.length_append, enc16, encLE_length]
  induction ps with
  | nil => simp
  | cons p l ih =>
      simp only [List.map_cons, List.flatten_cons, List.length_append, List.length_cons,
        encPath_length]
      omega

theorem decLE_enc32 {n : Nat} (h : n < 2 ^ 32) : decLE (enc32 n) = n := by
  have h4 : (256 : Nat) ^ 4 = 2 ^ 32 := by norm_num
  exact decLE_encLE_of_lt (by omega)

theorem decLE_enc16 {n : Nat} (h : n < 2 ^ 16) : decLE (enc16 n) = n := by
  have h2 : (256 : Nat) ^ 2 = 2 ^ 16 := by norm_num
  exact decLE_encLE_of_lt (by omega)

theorem decInts_encLeaves (ls : List Int) (rest : List Nat)
    (hr : ∀ v ∈ ls, 0 ≤ v ∧ v < 2 ^ 127) :
    decInts ls.length (encLeaves ls ++ rest) = some (ls, rest) := by
  induction ls with
  | nil => simp [decInts, encLeaves]
  | cons v l ih =>
      have hv := hr v (by simp)
      simp only [encLeaves, List.map_cons, List.flatten_cons, List.length_cons,
        List.append_assoc]
      unfold decInts
      rw [List.take_left' (enc128_length v), dec128_enc128 hv.1 hv.2,
        List.drop_left' (enc128_length v)]
      rw [show (List.map enc128 l).flatten ++ rest = encLeaves l ++ rest from rfl,
        ih (fun w hw => hr w (by simp [hw]))]

theorem decPath_encPath (p : PartialAuthenticationPath) (rest : List Nat)
    (hwf : pathWF p) : decPath (encPath p ++ rest) = some (p, rest) := by
  obtain ⟨hv0, hv1, hc, hl⟩ := hwf
  have hlen : ¬((encPath p ++ rest).length < 20) := by
    rw [List.length_append, encPath_length]; omega
  unfold decPath
  rw [if_neg hlen]
  have h4 : (enc32 p.leaves.length).length = 4 := encLE_length 4 _
  simp only [encPath, List.append_assoc]
  rw [List.take_left' h4, List.drop_left' h4, List.take_left' (enc128_length _),
    dec128_enc128 hv0 hv1, List.drop_left' (enc128_length _)]
  dsimp only
  rw [decLE_enc32 hc, decInts_encLeaves p.leaves rest hl]

theorem decPathsAux_enc (ps : List PartialAuthenticationPath) (rest : List Nat)
    (hwf : ∀ p ∈ ps, pathWF p) :
    decPathsAux ps.length ((ps.map encPath).flatten ++ rest) = some ps := by
  induction ps generalizing rest with
  | nil => rfl
  | cons p l ih =>
      simp only [List.map_cons, List.flatten_cons, List.length_cons, List.append_assoc]
      unfold decPathsAux
      rw [decPath_encPath p _ (hwf p (by simp))]
      dsimp only
      rw [ih _ (fun x hx => hwf x (by simp [hx]))]

theorem decPaths_encPaths (ps : List PartialAuthenticationPath)
    (hwf : ∀ p ∈ ps, pathWF p) (hsz : (encPaths ps).length < 2 ^ 16) :
    decPaths (encPaths ps) = some ps := by
  have hcnt : ps.length < 2 ^ 16 := by
    have := encPaths_length_lower ps; omega
  have h2 : (enc16 ps.length).length = 2 := encLE_length 2 _
  unfold decPaths
  rw [if_neg (by rw [encPaths, List.length_append, h2]; omega)]
  rw [encPaths, List.take_left' h2, List.drop_left' h2, decLE_enc16 hcnt]
  have := decPathsAux_enc ps [] hwf
  rwa [List.append_nil] at this

/-- The bytes the prover's query phase appends: per round, the two
length-prefixed path-vector serializations. -/
def pathsBlock : List (List PartialAuthenticationPath) →
    List (List PartialAuthenticationPath) → List Nat
  | c :: cs, a :: abL =>
    enc16 (encPaths c).length ++ encPaths c ++ enc16 (encPaths a).length ++
      encPaths a ++ pathsBlock cs abL
  | _, _ => []

theorem pathsRounds_enc (cs : List (List PartialAuthenticationPath)) :
    ∀ (abL : List (List PartialAuthenticationPath)) (pre : List Nat),
      cs.length = abL.length →
      (∀ l ∈ cs, (∀ p ∈ l, pathWF p) ∧ (encPaths l).length < 2 ^ 16) →
      (∀ l ∈ abL, (∀ p ∈ l, pathWF p) ∧ (encPaths l).length < 2 ^ 16) →
      pathsRounds (pre ++ pathsBlock cs abL) cs.length pre.length =
        .value (some (cs, abL, pre.length + (pathsBlock cs abL).length)) := by
  induction cs with
  | nil =>
      intro abL pre hlen _ _
      have : abL = [] := by
        cases abL with
        | nil => rfl
        | cons a l => simp at hlen
      subst this
      simp [pathsBlock, pathsRounds]
  | cons c cs ih =>
      intro abL pre hlen hc hab
      cases abL with
      | nil => simp at hlen
      | cons a abL =>
        have hcwf := hc c (by simp)
        have hawf := hab a (by simp)
        have h2c : (enc16 (encPaths c).length).length = 2 := encLE_length 2 _
        have h2a : (enc16 (encPaths a).length).length = 2 := encLE_length 2 _
        have hblock : pathsBlock (c :: cs) (a :: abL) =
            enc16 (encPaths c).length ++ encPaths c ++ enc16 (encPaths a).length ++
              encPaths a ++ pathsBlock cs abL := rfl
        have hser : pre ++ pathsBlock (c :: cs) (a :: abL) =
            pre ++ (enc16 (encPaths c).length ++ (encPaths c ++
              (enc16 (encPaths a).length ++ (encPaths a ++ pathsBlock cs abL)))) := by
          rw [hblock]; simp [List.append_assoc]
        have hserlen : (pre ++ pathsBlock (c :: cs) (a :: abL)).length =
            pre.length + 2 + (encPaths c).length + 2 + (encPaths a).length +
              (pathsBlock cs abL).length := by
          rw [hser]; simp only [List.length_append, h2c, h2a]; omega
        show pathsRounds (pre ++ pathsBlock (c :: cs) (a :: abL)) (cs.length + 1)
            pre.length = _
        unfold pathsRounds
        dsimp only
        rw [if_neg (by omega)]
        have hd1 : ((pre ++ pathsBlock (c :: cs) (a :: abL)).drop pre.length).take 2 =
            enc16 (encPaths c).length := by
          rw [hser, List.drop_left, List.take_left' h2c]
        rw [hd1, decLE_enc16 hcwf.2]
        rw [if_neg (by omega)]
        have hpre1 : (pre ++ enc16 (encPaths c).length).length = pre.length + 2 := by
          simp [h2c]
        have hd2 : ((pre ++ pathsBlock (c :: cs) (a :: abL)).drop (pre.length + 2)).take
            (encPaths c).length = encPaths c := by
          rw [hser, show pre ++ (enc16 (encPaths c).length ++ (encPaths c ++
            (enc16 (encPaths a).length ++ (encPaths a ++ pathsBlock cs abL)))) =
            (pre ++ enc16 (encPaths c).length) ++ (encPaths c ++
            (enc16 (encPaths a).length ++ (encPaths a ++ pathsBlock cs abL))) by
              simp [List.append_assoc]]
          rw [List.drop_left' hpre1, List.take_left]
        rw [hd2, decPaths_encPaths c hcwf.1 hcwf.2]
        dsimp only
        rw [if_neg (by omega)]
        have hpre2 : (pre ++ enc16 (encPaths c).length ++ encPaths c).length =
            pre.length + 2 + (encPaths c).length := by simp [h2c]; omega
        have hd3 : ((pre ++ pathsBlock (c :: cs) (a :: abL)).drop
            (pre.length + 2 + (encPaths c).length)).take 2 =
            enc16 (encPaths a).length := by
          rw [hser, show pre ++ (enc16 (encPaths c).length ++ (encPaths c ++
            (enc16 (encPaths a).length ++ (encPaths a ++ pathsBlock cs abL)))) =
            (pre ++ enc16 (encPaths c).length ++ encPaths c) ++
            (enc16 (encPaths a).length ++ (encPaths a ++ pathsBlock cs abL)) by
              simp [List.append_assoc]]
          rw [List.drop_left' hpre2, List.take_left' h2a]
        rw [hd3, decLE_enc16 hawf.2]
        rw [if_neg (by omega)]
        have hpre3 : (pre ++ enc16 (encPaths c).length ++ encPaths c ++
            enc16 (encPaths a).length).length =
            pre.length + 2 + (encPaths c).length + 2 := by simp [h2c, h2a]; omega
        have hd4 : ((pre ++ pathsBlock (c :: cs) (a :: abL)).drop
            (pre.length + 2 + (encPaths c).length + 2)).take (encPaths a).length =
            encPaths a := by
          rw [hser, show pre ++ (enc16 (encPaths c).length ++ (encPaths c ++
            (enc16 (encPaths a).length ++ (encPaths a ++ pathsBlock cs abL)))) =
            (pre ++ enc16 (encPaths c).length ++ encPaths c ++
              enc16 (encPaths a).length) ++ (encPaths a ++ pathsBlock cs abL) by
              simp [List.append_assoc]]
          rw [List.drop_left' hpre3, List.take_left]
        rw [hd4, decPaths_encPaths a hawf.1 hawf.2]
        dsimp only
        have hpre4 : (pre ++ enc16 (encPaths c).length ++ encPaths c ++
            enc16 (encPaths a).length ++ encPaths a).length =
            pre.length + 2 + (encPaths c).length + 2 + (encPaths a).length := by
          simp [h2c, h2a]; omega
        have hser4 : pre ++ pathsBlock (c :: cs) (a :: abL) =
            (pre ++ enc16 (encPaths c).length ++ encPaths c ++
              enc16 (encPaths a).length ++ encPaths a) ++ pathsBlock cs abL := by
          rw [hser]; simp [List.append_assoc]
        have hrec := ih abL (pre ++ enc16 (encPaths c).length ++ encPaths c ++
            enc16 (encPaths a).length ++ encPaths a)
          (by simp only [List.length_cons] at hlen; omega)
          (fun l hl => hc l (by simp [hl])) (fun l hl => hab l (by simp [hl]))
        rw [hpre4] at hrec
        rw [show pre.length + 2 + (encPaths c).length + 2 + (encPaths a).length =
          pre.length + 2 + (encPaths c).length + 2 + (encPaths a).length from rfl,
          ← hser4] at hrec
        rw [hrec]
        dsimp only
        rw [hblock]
        simp only [List.length_append, h2c, h2a, PanicOr.value.injEq, Option.some.injEq,
          Prod.mk.injEq, true_and]
        omega

theorem fri_prover_iteration_length (cw : List Int) (β q inv2 ω : Int) :
    (fri_prover_iteration cw β q inv2 ω).length = cw.length / 2 :=
  friLoop_length cw β q inv2 ω (cw.length / 2) 0 1

theorem friLoop_mem_range (cw : List Int) (β q inv2 ω : Int) (hq : 0 < q) :
    ∀ (count i : Nat) (x v : Int), v ∈ friLoop cw β q inv2 ω i count x →
      0 ≤ v ∧ v < q := by
  intro count
  induction count with
  | zero => intro i x v hv; simp [friLoop] at hv
  | succ c ih =>
      intro i x v hv
      simp only [friLoop, List.mem_cons] at hv
      cases hv with
      | inl hh => subst hh; exact friEntry_range _ _ _ _ _ _ hq
      | inr hh => exact ih _ _ _ hh

theorem commit_step_output_length (h : List Nat → List Nat) (q inv2 : Int)
    (st : CommitState) :
    (commit_step h q inv2 st).output.length = st.output.length + 32 := by
  simp [commit_step, merkle_root, digest32_length]

theorem commit_loop_output_length (h : List Nat → List Nat) (q inv2 : Int) :
    ∀ (n : Nat) (st : CommitState),
      (commit_loop h q inv2 n st).output.length = st.output.length + 32 * n := by
  intro n
  induction n with
  | zero => intro st; rfl
  | succ n ih =>
      intro st
      show (commit_loop h q inv2 n (commit_step h q inv2 st)).output.length = _
      rw [ih, commit_step_output_length]
      omega

theorem commit_loop_mts_mono (h : List Nat → List Nat) (q inv2 : Int) :
    ∀ (n : Nat) (st : CommitState), st.mts <+: (commit_loop h q inv2 n st).mts := by
  intro n
  induction n with
  | zero => intro st; exact List.prefix_rfl
  | succ n ih =>
      intro st
      exact (List.prefix_append _ _).trans (ih (commit_step h q inv2 st))

theorem commit_loop_preimages_mono (h : List Nat → List Nat) (q inv2 : Int) :
    ∀ (n : Nat) (st : CommitState),
      st.challenge_hash_preimages <+:
        (commit_loop h q inv2 n st).challenge_hash_preimages := by
  intro n
  induction n with
  | zero => intro st; exact List.prefix_rfl
  | succ n ih =>
      intro st
      exact (List.prefix_append _ _).trans (ih (commit_step h q inv2 st))

/-- The commit phase's transcript is the starting transcript followed by the
roots of the newly committed layers, in order. -/
theorem commit_loop_output_roots (h : List Nat → List Nat) (q inv2 : Int) :
    ∀ (n : Nat) (st : CommitState),
      (commit_loop h q inv2 n st).output =
        st.output ++
          (((commit_loop h q inv2 n st).mts.drop st.mts.length).map
            (merkle_root h)).flatten := by
  intro n
  induction n with
  | zero =>
      intro st
      show st.output = st.output ++ ((st.mts.drop st.mts.length).map (merkle_root h)).flatten
      simp [List.drop_length]
  | succ n ih =>
      intro st
      show (commit_loop h q inv2 n (commit_step h q inv2 st)).output =
        st.output ++
          (((commit_loop h q inv2 n (commit_step h q inv2 st)).mts.drop st.mts.length).map
            (merkle_root h)).flatten
      rw [ih (commit_step h q inv2 st)]
      obtain ⟨t, ht⟩ := commit_loop_mts_mono h q inv2 n (commit_step h q inv2 st)
      rw [← ht]
      rw [List.drop_left]
      rw [show (commit_step h q inv2 st).mts = st.mts ++ [fri_prover_iteration st.mut_codeword
          (from_bytes_raw q ((digest32 h st.output).take 16)) q inv2 st.root_temp] from rfl]
      rw [List.append_assoc, List.drop_left]
      show st.output ++ merkle_root h (fri_prover_iteration st.mut_codeword
          (from_bytes_raw q ((digest32 h st.output).take 16)) q inv2 st.root_temp) ++
          (t.map (merkle_root h)).flatten = _
      simp [List.append_assoc]

/-- Each preimage snapshot taken by the commit phase has the expected length
and is a prefix of the commit phase's final transcript. -/
theorem commit_loop_preimage_pre (h : List Nat → List Nat) (q inv2 : Int) :
    ∀ (n : Nat) (st : CommitState) (j : Nat), j < n →
      ((commit_loop h q inv2 n st).challenge_hash_preimages.getD
        (st.challenge_hash_preimages.length + j) []).length = st.output.length + 32 * j ∧
      ((commit_loop h q inv2 n st).challenge_hash_preimages.getD
        (st.challenge_hash_preimages.length + j) []) <+:
        (commit_loop h q inv2 n st).output := by
  intro n
  induction n with
  | zero => intro st j hj; exact absurd hj (by omega)
  | succ n ih =>
      intro st j hj
      cases j with
      | zero =>
          obtain ⟨t, ht⟩ := commit_loop_preimages_mono h q inv2 n (commit_step h q inv2 st)
          have hstep : (commit_step h q inv2 st).challenge_hash_preimages =
              st.challenge_hash_preimages ++ [st.output] := rfl
          have hget : (commit_loop h q inv2 (n + 1) st).challenge_hash_preimages.getD
              (st.challenge_hash_preimages.length + 0) [] = st.output := by
            show (commit_loop h q inv2 n (commit_step h q inv2 st)).challenge_hash_preimages.getD
              (st.challenge_hash_preimages.length + 0) [] = st.output
            rw [← ht, hstep]
            rw [show (st.challenge_hash_preimages ++ [st.output]) ++ t =
              st.challenge_hash_preimages ++ ([st.output] ++ t) by simp [List.append_assoc]]
            rw [List.getD_append_right _ _ _ _ (by omega)]
            simp
          refine ⟨by rw [hget]; omega, ?_⟩
          rw [hget]
          exact (List.prefix_append _ _).trans
            (commit_loop_output_mono h q inv2 n (commit_step h q inv2 st))
      | succ j =>
          have hidx : st.challenge_hash_preimages.length + (j + 1) =
              (commit_step h q inv2 st).challenge_hash_preimages.length + j := by
            show _ = (st.challenge_hash_preimages ++ [st.output]).length + j
            simp
            omega
          have hrec := ih (commit_step h q inv2 st) j (by omega)
          show ((commit_loop h q inv2 n (commit_step h q inv2 st)).challenge_hash_preimages.getD
              (st.challenge_hash_preimages.length + (j + 1)) []).length =
              st.output.length + 32 * (j + 1) ∧ _
          rw [hidx]
          refine ⟨?_, hrec.2⟩
          rw [hrec.1, commit_step_output_length]
          omega

/-- Layer invariant of the commit phase: entry ranges and layer lengths are
preserved from the starting state through every committed layer. -/
theorem commit_loop_mts_inv (h : List Nat → List Nat) (q inv2 : Int) (hq : 0 < q)
    (N : Nat) :
    ∀ (n : Nat) (st : CommitState),
      (∀ l ∈ st.mts, (∀ v ∈ l, 0 ≤ v ∧ v < q) ∧ l.length ≤ N) →
      st.mut_codeword.length ≤ N →
      ∀ l ∈ (commit_loop h q inv2 n st).mts, (∀ v ∈ l, 0 ≤ v ∧ v < q) ∧ l.length ≤ N := by
  intro n
  induction n with
  | zero => intro st hst _ l hl; exact hst l hl
  | succ n ih =>
      intro st hst hcwlen l hl
      refine ih (commit_step h q inv2 st) ?_ ?_ l hl
      · intro l' hl'
        simp only [commit_step, List.mem_append, List.mem_singleton] at hl'
        cases hl' with
        | inl hmem => exact hst l' hmem
        | inr hnew =>
            subst hnew
            refine ⟨fun v hv => friLoop_mem_range _ _ _ _ _ hq _ _ _ v hv, ?_⟩
            rw [fri_prover_iteration_length]
            omega
      · show (fri_prover_iteration _ _ _ _ _).length ≤ N
        rw [fri_prover_iteration_length]
        omega

/-- The query phase's transcript is the starting transcript followed by the
length-prefixed path serializations of the newly opened proofs, and the proof
lists grow by one entry per round. -/
theorem query_loop_output_block (h : List Nat → List Nat) (ipp : List Nat) (s N : Nat)
    (mts : List (List Int)) (q : Int) :
    ∀ (n i : Nat) (st qst : QueryState),
      query_loop h ipp s N mts q i n st = .value qst →
      qst.output = st.output ++
        pathsBlock (qst.c_proofs.drop st.c_proofs.length)
          (qst.ab_proofs.drop st.ab_proofs.length) ∧
      qst.c_proofs.length = st.c_proofs.length + n ∧
      qst.ab_proofs.length = st.ab_proofs.length + n ∧
      st.c_proofs <+: qst.c_proofs ∧ st.ab_proofs <+: qst.ab_proofs := by
  intro n
  induction n with
  | zero =>
      intro i st qst hq
      simp only [query_loop, PanicOr.value.injEq] at hq
      subst hq
      refine ⟨by simp [List.drop_length, pathsBlock], by omega, by omega,
        List.prefix_rfl, List.prefix_rfl⟩
  | succ n ih =>
      intro i st qst hq
      unfold query_loop at hq
      dsimp only at hq
      split at hq
      · exact absurd hq (by simp)
      · exact absurd hq (by simp)
      · rename_i abc habc
        have hrec := ih (i + 1) _ qst hq
        obtain ⟨hout, hclen, hablen, hcpre, habpre⟩ := hrec
        set C := get_multi_proof (mts.getD (i + 1) []) (abc.map (fun t => t.2.2)) with hC
        set A := get_multi_proof (mts.getD i [])
          (abc.flatMap (fun t => [t.1, t.2.1])) with hA
        obtain ⟨tc, htc⟩ := hcpre
        obtain ⟨ta, hta⟩ := habpre
        have hdc : qst.c_proofs.drop st.c_proofs.length = C :: tc := by
          rw [← htc]
          show ((st.c_proofs ++ [C]) ++ tc).drop st.c_proofs.length = _
          rw [List.append_assoc, List.drop_left]
          rfl
        have hda : qst.ab_proofs.drop st.ab_proofs.length = A :: ta := by
          rw [← hta]
          show ((st.ab_proofs ++ [A]) ++ ta).drop st.ab_proofs.length = _
          rw [List.append_assoc, List.drop_left]
          rfl
        have hdc1 : qst.c_proofs.drop (st.c_proofs.length + 1) = tc := by
          rw [← htc]
          exact List.drop_left' (by simp)
        have hda1 : qst.ab_proofs.drop (st.ab_proofs.length + 1) = ta := by
          rw [← hta]
          exact List.drop_left' (by simp)
        refine ⟨?_, ?_, ?_, ?_, ?_⟩
        · rw [hout]
          dsimp only
          rw [show (st.c_proofs ++ [C]).length = st.c_proofs.length + 1 by simp]
          rw [show (st.ab_proofs ++ [A]).length = st.ab_proofs.length + 1 by simp]
          rw [hdc1, hda1, hdc, hda]
          rw [show pathsBlock (C :: tc) (A :: ta) = enc16 (encPaths C).length ++
            encPaths C ++ enc16 (encPaths A).length ++ encPaths A ++ pathsBlock tc ta
            from rfl]
          simp [List.append_assoc]
        · rw [hclen]; simp; omega
        · rw [hablen]; simp; omega
        · exact (List.prefix_append _ _).trans ⟨tc, htc⟩
        · exact (List.prefix_append _ _).trans ⟨ta, hta⟩

/-- Every path the query phase appends is well formed, as long as every
committed layer has entries in the nonnegative `i128` range and a leaf count
inside `u32`. -/
theorem query_loop_proofs_wf (h : List Nat → List Nat) (ipp : List Nat) (s N : Nat)
    (mts : List (List Int)) (q : Int)
    (hmts : ∀ l ∈ mts, (∀ v ∈ l, 0 ≤ v ∧ v < 2 ^ 127) ∧ l.length < 2 ^ 32) :
    ∀ (n i : Nat) (st qst : QueryState),
      query_loop h ipp s N mts q i n st = .value qst →
      (∀ l ∈ st.c_proofs, ∀ p ∈ l, pathWF p) →
      (∀ l ∈ st.ab_proofs, ∀ p ∈ l, pathWF p) →
      (∀ l ∈ qst.c_proofs, ∀ p ∈ l, pathWF p) ∧
      (∀ l ∈ qst.ab_proofs, ∀ p ∈ l, pathWF p) := by
  have hlayer : ∀ (j : Nat), (∀ v ∈ mts.getD j [], 0 ≤ v ∧ v < 2 ^ 127) ∧
      (mts.getD j []).length < 2 ^ 32 := by
    intro j
    by_cases hjl : j < mts.length
    · rw [List.getD_eq_getElem mts [] hjl]
      exact hmts _ (List.getElem_mem hjl)
    · rw [List.getD_eq_default mts [] (by omega)]
      exact ⟨fun v hv => absurd hv (List.not_mem_nil v), by norm_num⟩
  have hopen : ∀ (j : Nat) (idxs : List Nat) (p : PartialAuthenticationPath),
      p ∈ get_multi_proof (mts.getD j []) idxs → pathWF p := by
    intro j idxs p hp
    simp only [get_multi_proof, List.mem_map] at hp
    obtain ⟨idx, _, hpe⟩ := hp
    subst hpe
    have hlay := hlayer j
    refine ⟨?_, ?_, hlay.2, hlay.1⟩
    · by_cases hi : idx < (mts.getD j []).length
      · exact (hlay.1 _ (by rw [List.getD_eq_getElem _ 0 hi]; exact List.getElem_mem hi)).1
      · rw [List.getD_eq_default _ 0 (by omega)]
    · by_cases hi : idx < (mts.getD j []).length
      · exact (hlay.1 _ (by rw [List.getD_eq_getElem _ 0 hi]; exact List.getElem_mem hi)).2
      · rw [List.getD_eq_default _ 0 (by omega)]; norm_num
  intro n
  induction n with
  | zero =>
      intro i st qst hq hc hab
      simp only [query_loop, PanicOr.value.injEq] at hq
      subst hq
      exact ⟨hc, hab⟩
  | succ n ih =>
      intro i st qst hq hc hab
      unfold query_loop at hq
      dsimp only at hq
      split at hq
      · exact absurd hq (by simp)
      · exact absurd hq (by simp)
      · refine ih (i + 1) _ qst hq ?_ ?_
        · intro l hl
          simp only [List.mem_append, List.mem_singleton] at hl
          cases hl with
          | inl hmem => exact hc l hmem
          | inr hnew => subst hnew; exact fun p hp => hopen _ _ p hp
        · intro l hl
          simp only [List.mem_append, List.mem_singleton] at hl
          cases hl with
          | inl hmem => exact hab l hmem
          | inr hnew => subst hnew; exact fun p hp => hopen _ _ p hp

theorem flatten_const_length (L : List (List Nat)) (k : Nat)
    (hk : ∀ r ∈ L, r.length = k) : L.flatten.length = k * L.length := by
  induction L with
  | nil => simp
  | cons r L ih =>
      simp only [List.flatten_cons, List.length_append, List.length_cons,
        hk r (by simp), ih (fun x hx => hk x (by simp [hx]))]
      ring

theorem read_at (B pre enc rest : List Nat) (n k : Nat)
    (hB : B = pre ++ enc ++ rest) (hn : pre.length = n) (hk : enc.length = k) :
    (B.drop n).take k = enc := by
  subst hB
  subst hn
  subst hk
  rw [List.append_assoc, List.drop_left, List.take_left]

theorem read_flat32 (roots : List (List Nat)) :
    ∀ (pre rest : List Nat), (∀ r ∈ roots, r.length = 32) →
      ∀ j, j < roots.length →
      ((pre ++ roots.flatten ++ rest).drop (pre.length + j * 32)).take 32 =
        roots.getD j [] := by
  induction roots with
  | nil => intro pre rest _ j hj; simp at hj
  | cons r rs ih =>
      intro pre rest hlen j hj
      have h32 := hlen r (by simp)
      cases j with
      | zero =>
          rw [show pre ++ (r :: rs).flatten ++ rest =
            pre ++ (r ++ (rs.flatten ++ rest)) by simp [List.append_assoc]]
          rw [show pre.length + 0 * 32 = pre.length by omega, List.drop_left,
            List.take_left' h32]
          rfl
      | succ j =>
          have hrec := ih (pre ++ r) rest (fun x hx => hlen x (by simp [hx])) j
            (by simpa using hj)
          rw [show pre ++ (r :: rs).flatten ++ rest =
            (pre ++ r) ++ rs.flatten ++ rest by simp [List.append_assoc]]
          rw [show pre.length + (j + 1) * 32 = (pre ++ r).length + j * 32 by
            simp [h32]; ring]
          rw [hrec]
          simp [List.getD_cons_succ]

/-- Claim C4: codec round-trip.  Every proof object emitted by a successful
prover run decodes back: `from_serialization` applied to the final transcript
at the caller's start index returns the emitted proof object together with the
final transcript length, and the encoding is the contiguous suffix the prover
appended to the initial transcript (which remains a prefix).  The hypotheses
express the Rust types' invariants: the codeword size and sample count are
`u32` values, the root of unity and codeword entries are field elements in the
nonnegative `i128` range, and each per-round path serialization fits its `u16`
length prefix. -/
theorem C4_codec_roundtrip (h : List Nat → List Nat) (cw : List Int) (q : Int)
    (d s : Nat) (out0 : List Nat) (ω : Int) (o : List Nat) (p : LowDegreeProof)
    (hp : prover h cw q d s out0 ω = .value (o, .ok p))
    (hN : cw.length < 2 ^ 32) (hs : s < 2 ^ 32)
    (hω0 : 0 ≤ ω) (hω1 : ω < 2 ^ 127)
    (hq : 0 < q) (hq127 : q ≤ 2 ^ 127)
    (hcw : ∀ v ∈ cw, 0 ≤ v ∧ v < q)
    (hszc : ∀ l ∈ p.c_proofs, (encPaths l).length < 2 ^ 16)
    (hszab : ∀ l ∈ p.ab_proofs, (encPaths l).length < 2 ^ 16) :
    from_serialization o out0.length = .value (.ok (p, o.length)) ∧ out0 <+: o := by
  obtain ⟨out1, rc, mdlr, qst, hps, hql, ho, hrec⟩ := prover_ok_destruct hp
  obtain ⟨hout1, -, hgrc, hrc1, hd32, -⟩ := prover_shared_ok hps
  set inv2 := ((eea q 2).2.2 + q).tmod q with hinv2
  set st0 := ({ mut_codeword := cw, output := out1, root_temp := ω, challenge_hash_preimages := [], mts := [cw] } : CommitState) with hst0
  set cst := commit_loop h q inv2 rc st0 with hcst
  obtain ⟨t, ht0⟩ := commit_loop_mts_mono h q inv2 rc st0
  rw [← hcst] at ht0
  have hmts_cons : cst.mts = cw :: t := by
    rw [← ht0, hst0]
    rfl
  have hmtslen : cst.mts.length = rc + 1 := by
    have := commit_loop_mts_length h q inv2 rc st0
    rw [← hcst] at this
    simp only [hst0] at this
    simp at this
    omega
  have hout1len : out1.length = out0.length + 62 := by
    rw [hout1]
    simp [headerBytes_length, merkle_root, digest32_length]
  have hcstoutlen : cst.output.length = out0.length + 62 + 32 * rc := by
    have := commit_loop_output_length h q inv2 rc st0
    rw [← hcst] at this
    simp only [hst0] at this
    rw [this]
    simp [hout1len]
  have hroots32 : ∀ r ∈ cst.mts.map (merkle_root h), r.length = 32 := by
    intro r hr
    obtain ⟨l, -, rfl⟩ := List.mem_map.mp hr
    exact digest32_length h _
  have hcstout : cst.output = out0 ++ headerBytes cw d s ω ++
      (cst.mts.map (merkle_root h)).flatten := by
    have hor := commit_loop_output_roots h q inv2 rc st0
    rw [← hcst] at hor
    simp only [hst0] at hor
    rw [hor, hmts_cons, hout1]
    simp [List.append_assoc]
  obtain ⟨hqout, hqclen, hqablen, -, -⟩ :=
    query_loop_output_block h cst.output s cw.length cst.mts q rc 0 _ qst hql
  dsimp only at hqout hqclen hqablen
  simp only [List.length_nil, List.drop_zero, Nat.zero_add] at hqout hqclen hqablen
  set PB := pathsBlock qst.c_proofs qst.ab_proofs with hPB
  have hoPB : o = cst.output ++ PB := by rw [ho, hqout]
  have holen2 : o.length = cst.output.length + PB.length := by rw [hoPB]; simp
  have holen : o.length = out0.length + 62 + 32 * rc + PB.length := by
    rw [holen2, hcstoutlen]
  have hippfix : cst.output <+: o := by rw [hoPB]; exact List.prefix_append _ _
  have hout0fix : out0 <+: o := by
    refine List.IsPrefix.trans ?_ hippfix
    rw [hcstout, List.append_assoc]
    exact List.prefix_append _ _
  refine ⟨?_, hout0fix⟩
  -- layer and path well-formedness
  have hmts_inv : ∀ l ∈ cst.mts, (∀ v ∈ l, 0 ≤ v ∧ v < q) ∧ l.length ≤ cw.length := by
    intro l hl
    rw [hcst] at hl
    refine commit_loop_mts_inv h q inv2 hq cw.length rc st0 ?_ ?_ l hl
    · intro l' hl'
      simp only [hst0, List.mem_singleton] at hl'
      subst hl'
      exact ⟨hcw, le_refl _⟩
    · simp [hst0]
  have hmtswf : ∀ l ∈ cst.mts, (∀ v ∈ l, 0 ≤ v ∧ v < 2 ^ 127) ∧ l.length < 2 ^ 32 := by
    intro l hl
    obtain ⟨hv, hlen⟩ := hmts_inv l hl
    exact ⟨fun v hv' => ⟨(hv v hv').1, lt_of_lt_of_le (hv v hv').2 hq127⟩, by omega⟩
  obtain ⟨hcwf, habwf⟩ :=
    query_loop_proofs_wf h cst.output s cw.length cst.mts q hmtswf rc 0 _ qst hql
      (by intro l hl; simp at hl) (by intro l hl; simp at hl)
  have hszc' : ∀ l ∈ qst.c_proofs, (encPaths l).length < 2 ^ 16 := by
    intro l hl
    refine hszc l ?_
    rw [hrec]
    exact hl
  have hszab' : ∀ l ∈ qst.ab_proofs, (encPaths l).length < 2 ^ 16 := by
    intro l hl
    refine hszab l ?_
    rw [hrec]
    exact hl
  have hpaths0 := pathsRounds_enc qst.c_proofs qst.ab_proofs cst.output (by omega)
    (fun l hl => ⟨hcwf l hl, hszc' l hl⟩) (fun l hl => ⟨habwf l hl, hszab' l hl⟩)
  rw [hqclen, ← hPB, ← hoPB] at hpaths0
  -- the slice reads of the header fields
  have hoeq : o = out0 ++ (enc32 cw.length ++ (enc32 d ++ (enc32 s ++
      (enc16 (enc128 ω).length ++ (enc128 ω ++
        ((cst.mts.map (merkle_root h)).flatten ++ PB)))))) := by
    rw [hoPB, hcstout]
    simp [headerBytes, List.append_assoc]
  have hr1 : (o.drop out0.length).take 4 = enc32 cw.length :=
    read_at o out0 (enc32 cw.length)
      (enc32 d ++ (enc32 s ++ (enc16 (enc128 ω).length ++ (enc128 ω ++
        ((cst.mts.map (merkle_root h)).flatten ++ PB))))) out0.length 4
      (by rw [hoeq]; simp [List.append_assoc]) rfl (encLE_length 4 _)
  have hr2 : (o.drop (out0.length + 4)).take 4 = enc32 d :=
    read_at o (out0 ++ enc32 cw.length) (enc32 d)
      (enc32 s ++ (enc16 (enc128 ω).length ++ (enc128 ω ++
        ((cst.mts.map (merkle_root h)).flatten ++ PB)))) (out0.length + 4) 4
      (by rw [hoeq]; simp [List.append_assoc])
      (by simp [enc32, encLE_length]) (encLE_length 4 _)
  have hr3 : (o.drop (out0.length + 4 + 4)).take 4 = enc32 s :=
    read_at o (out0 ++ enc32 cw.length ++ enc32 d) (enc32 s)
      (enc16 (enc128 ω).length ++ (enc128 ω ++
        ((cst.mts.map (merkle_root h)).flatten ++ PB))) (out0.length + 4 + 4) 4
      (by rw [hoeq]; simp [List.append_assoc])
      (by simp [enc32, encLE_length]) (encLE_length 4 _)
  have hr4 : (o.drop (out0.length + 4 + 4 + 4)).take 2 = enc16 (enc128 ω).length :=
    read_at o (out0 ++ enc32 cw.length ++ enc32 d ++ enc32 s)
      (enc16 (enc128 ω).length)
      (enc128 ω ++ ((cst.mts.map (merkle_root h)).flatten ++ PB))
      (out0.length + 4 + 4 + 4) 2
      (by rw [hoeq]; simp [List.append_assoc])
      (by simp [enc32, encLE_length]) (encLE_length 2 _)
  have hr5 : (o.drop (out0.length + 4 + 4 + 4 + 2)).take 16 = enc128 ω :=
    read_at o (out0 ++ enc32 cw.length ++ enc32 d ++ enc32 s ++
      enc16 (enc128 ω).length) (enc128 ω)
      ((cst.mts.map (merkle_root h)).flatten ++ PB)
      (out0.length + 4 + 4 + 4 + 2) 16
      (by rw [hoeq]; simp [List.append_assoc])
      (by simp [enc32, enc16, encLE_length]) (enc128_length _)
  -- the recomputed preimages, index-picker preimage and roots
  have hplen : cst.challenge_hash_preimages.length = rc := by
    have := commit_loop_preimages_length h q inv2 rc st0
    rw [← hcst] at this
    simp only [hst0] at this
    simp at this
    omega
  have hpre_eq : (List.range rc).map
      (fun i => o.take ((i + 1) * 32 + (out0.length + 4 + 4 + 4 + 2 + 16))) =
      cst.challenge_hash_preimages := by
    refine List.ext_getElem (by simp [hplen]) ?_
    intro i h1 h2
    rw [List.getElem_map, List.getElem_range]
    have hi : i < rc := by simpa using h1
    have hpp := commit_loop_preimage_pre h q inv2 rc st0 i hi
    rw [← hcst] at hpp
    simp only [hst0, List.length_nil, Nat.zero_add] at hpp
    have hgd : cst.challenge_hash_preimages.getD i [] =
        cst.challenge_hash_preimages[i] :=
      List.getD_eq_getElem _ _ (by omega)
    have htake := (List.prefix_iff_eq_take).mp (hpp.2.trans hippfix)
    rw [hpp.1] at htake
    rw [hout1len] at htake
    rw [← hgd, htake]
    congr 1
    omega
  have hipp_eq : o.take ((rc + 1) * 32 + (out0.length + 4 + 4 + 4 + 2 + 16)) =
      cst.output := by
    have := (List.prefix_iff_eq_take).mp hippfix
    rw [show (rc + 1) * 32 + (out0.length + 4 + 4 + 4 + 2 + 16) =
      cst.output.length by omega]
    exact this.symm
  have hroots_eq : (List.range (rc + 1)).map
      (fun i => (o.drop (out0.length + 4 + 4 + 4 + 2 + 16 + i * 32)).take 32) =
      cst.mts.map (merkle_root h) := by
    refine List.ext_getElem (by simp [hmtslen]) ?_
    intro i h1 h2
    rw [List.getElem_map, List.getElem_range]
    have hi : i < rc + 1 := by simpa using h1
    have hread := read_flat32 (cst.mts.map (merkle_root h))
      (out0 ++ headerBytes cw d s ω) PB hroots32 i (by simp [hmtslen]; omega)
    have hbuf : (out0 ++ headerBytes cw d s ω) ++
        (cst.mts.map (merkle_root h)).flatten ++ PB = o := by
      rw [hoPB, hcstout]
    rw [hbuf] at hread
    rw [show (out0 ++ headerBytes cw d s ω).length = out0.length + 30 by
      simp [headerBytes_length]] at hread
    rw [show out0.length + 4 + 4 + 4 + 2 + 16 + i * 32 =
      out0.length + 30 + i * 32 by omega]
    rw [hread]
    exact List.getD_eq_getElem _ _ (by simp [hmtslen]; omega)
  -- walk the decoder
  unfold from_serialization
  dsimp only
  rw [hr1, decLE_enc32 hN, hr2, decLE_enc32 (show d < 2 ^ 32 by omega), hr3,
    decLE_enc32 hs, hr4,
    decLE_enc16 (show (enc128 ω).length < 2 ^ 16 by rw [enc128_length]; norm_num),
    enc128_length, hr5, dec128_enc128 hω0 hω1, hgrc]
  rw [if_neg (by omega)]
  rw [if_neg (by omega)]
  rw [if_neg (by omega)]
  rw [if_neg (by omega)]
  rw [if_neg (by omega)]
  dsimp only
  rw [if_neg (by omega)]
  rw [if_neg (by omega)]
  rw [hpre_eq, hipp_eq, hroots_eq]
  rw [show out0.length + 4 + 4 + 4 + 2 + 16 + (rc + 1) * 32 = cst.output.length
    by omega]
  rw [hpaths0]
  dsimp only
  rw [hrec, show o.length = cst.output.length + PB.length from holen2]

/-- C4 witness: on the concrete S1 run the full transcript decodes back to the
emitted proof object at start index 0, consuming the whole buffer. -/
theorem C4_codec_roundtrip_witness :
    from_serialization s1Out ([] : List Nat).length =
      .value (.ok (s1Proof, s1Out.length)) ∧ ([] : List Nat) <+: s1Out :=
  C4_codec_roundtrip zeroHash cwS1 101 1 2 [] 10 s1Out s1Proof (by decide)
    (by decide) (by decide) (by decide) (by decide) (by decide) (by decide)
    (by decide) (by decide) (by decide)

theorem take_chunk (l₁ l₂ : List Nat) (k n : Nat) (hk : l₁.length = k) :
    (l₁ ++ l₂).take (k + n) = l₁ ++ l₂.take n := by
  subst hk
  rw [List.take_append_eq_append_take]
  simp [List.take_of_length_le]

theorem take_le (l₁ l₂ : List Nat) (n : Nat) (h : n ≤ l₁.length) :
    (l₁ ++ l₂).take n = l₁.take n :=
  List.take_append_of_le_length h

/-- The 2048-entry all-ones codeword used to overflow the `u16` length prefix
of a path-vector serialization. -/
def cwBig : List Int := List.replicate 2048 1

/-- The transcript after `prover_shared` on the big instance. -/
def out1Big : List Nat :=
  [] ++ enc32 cwBig.length ++ enc32 1 ++ enc32 1 ++
    enc16 (enc128 (1 : Int)).length ++ enc128 (1 : Int) ++ merkle_root zeroHash cwBig

/-- The round-0 challenge of the big instance. -/
def chBig : Int := from_bytes_raw 5 ((digest32 zeroHash out1Big).take 16)

/-- `inv2` as the prover computes it for `q = 5`. -/
def inv2Big : Int := (((eea (5 : Int) 2).2.2) + 5).tmod 5

/-- The folded codeword of the big instance (1024 entries). -/
def cw1Big : List Int := fri_prover_iteration cwBig chBig 5 inv2Big 1

/-- The transcript after the commit phase of the big instance. -/
def cstOutBig : List Nat := out1Big ++ merkle_root zeroHash cw1Big

/-- The round-0 `c` paths of the big instance. -/
def c0Big : List PartialAuthenticationPath := get_multi_proof cw1Big [0]

/-- The round-0 `ab` paths of the big instance: two paths, each carrying all
2048 leaves, whose serialization is 65578 bytes — longer than a `u16`. -/
def ab0Big : List PartialAuthenticationPath := get_multi_proof cwBig [0, 1024]

/-- The final transcript of the big instance. -/
def oBig : List Nat :=
  cstOutBig ++ enc16 (encPaths c0Big).length ++ encPaths c0Big ++
    enc16 (encPaths ab0Big).length ++ encPaths ab0Big

/-- The proof object emitted on the big instance. -/
def pBig : LowDegreeProof :=
  { ab_proofs := [ab0Big]
    challenge_hash_preimages := [out1Big]
    codeword_size := cwBig.length
    c_proofs := [c0Big]
    index_picker_preimage := cstOutBig
    max_degree := 1
    max_degree_of_last_round := 0
    merkle_roots := [cwBig, cw1Big].map (merkle_root zeroHash)
    primitive_root_of_unity := 1
    rounds_count := 1
    s := 1 }

theorem cwBig_length : cwBig.length = 2048 := by
  rw [show cwBig = List.replicate 2048 1 from rfl, List.length_replicate]

theorem grc_big : get_rounds_count cwBig.length 1 1 = some (1, 0) := by
  rw [cwBig_length]
  decide

theorem prover_shared_big :
    prover_shared zeroHash 1 [] cwBig 1 1 = .value (out1Big, .ok (1, [cwBig], 0)) := by
  unfold prover_shared
  rw [if_neg (by decide), if_neg (by decide)]
  dsimp only
  rw [grc_big]
  rfl

theorem sampler_big (pre : List Nat) :
    get_abc_indices_internal zeroHash pre 0 1 cwBig.length =
      .value (some [(0, 1024, 0)]) := by
  rw [cwBig_length]
  rfl

set_option maxRecDepth 200000 in
theorem prover_big : prover zeroHash cwBig 5 1 1 [] 1 = .value (oBig, .ok pBig) := by
  unfold prover
  rw [prover_shared_big]
  dsimp only
  have hcommit : commit_loop zeroHash 5 (((eea (5 : Int) 2).2.2 + 5).tmod 5) 1
      { mut_codeword := cwBig, output := out1Big, root_temp := 1,
        challenge_hash_preimages := [], mts := [cwBig] } =
      { mut_codeword := cw1Big, output := cstOutBig, root_temp := ((1 : Int) * 1).tmod 5,
        challenge_hash_preimages := [out1Big], mts := [cwBig, cw1Big] } := rfl
  rw [hcommit]
  dsimp only
  have hq1 : query_loop zeroHash cstOutBig 1 cwBig.length [cwBig, cw1Big] 5 0 1
      { output := cstOutBig, c_proofs := [], ab_proofs := [], root_temp := 1 } =
      .value { output := oBig, c_proofs := [c0Big], ab_proofs := [ab0Big], root_temp := ((1 : Int) * 1).tmod 5 } := by
    unfold query_loop
    rw [sampler_big]
    dsimp only
    simp only [List.getD_cons_succ, List.getD_cons_zero, List.map_cons, List.map_nil,
      List.flatMap_cons, List.flatMap_nil, List.append_nil]
    rfl
  rw [hq1]
  rfl

theorem encLeaves_length (l : List Int) : (encLeaves l).length = 16 * l.length := by
  unfold encLeaves
  rw [flatten_const_length _ 16 (by
    intro r hr
    obtain ⟨v, -, rfl⟩ := List.mem_map.mp hr
    exact enc128_length v)]
  simp

theorem cw1Big_length : cw1Big.length = 1024 := by
  rw [show cw1Big = fri_prover_iteration cwBig chBig 5 inv2Big 1 from rfl,
    fri_prover_iteration_length, cwBig_length]

theorem c0Big_len : (encPaths c0Big).length = 16406 := by
  rw [show c0Big = [{ value := cw1Big.getD 0 0, leaves := cw1Big }] from rfl]
  simp only [encPaths, List.map_cons, List.map_nil, List.flatten_cons, List.flatten_nil,
    List.append_nil, List.length_append, enc16, encLE_length, encPath_length]
  rw [cw1Big_length]

theorem ab0Big_len : (encPaths ab0Big).length = 65578 := by
  rw [show ab0Big = [{ value := cwBig.getD 0 0, leaves := cwBig },
    { value := cwBig.getD 1024 0, leaves := cwBig }] from rfl]
  simp only [encPaths, List.map_cons, List.map_nil, List.flatten_cons, List.flatten_nil,
    List.append_nil, List.length_append, enc16, encLE_length, encPath_length]
  rw [cwBig_length]

theorem out1Big_length : out1Big.length = 62 := by
  simp only [out1Big, List.length_append, List.length_nil, enc32, enc16, encLE_length,
    enc128_length, merkle_root, digest32_length]

theorem cstOutBig_length : cstOutBig.length = 94 := by
  simp only [cstOutBig, List.length_append, out1Big_length, merkle_root, digest32_length]

theorem oBig_length : oBig.length = 82082 := by
  simp only [oBig, List.length_append, cstOutBig_length, c0Big_len, ab0Big_len,
    enc16, encLE_length]

theorem get_multi_proof_wf (leaves : List Int) (idxs : List Nat)
    (hv : ∀ v ∈ leaves, 0 ≤ v ∧ v < 2 ^ 127) (hlen : leaves.length < 2 ^ 32) :
    ∀ p ∈ get_multi_proof leaves idxs, pathWF p := by
  intro p hp
  simp only [get_multi_proof, List.mem_map] at hp
  obtain ⟨i, -, hpe⟩ := hp
  subst hpe
  refine ⟨?_, ?_, hlen, hv⟩
  · by_cases hi : i < leaves.length
    · exact (hv _ (by rw [List.getD_eq_getElem _ _ hi]; exact List.getElem_mem hi)).1
    · rw [List.getD_eq_default _ _ (by omega)]
  · by_cases hi : i < leaves.length
    · exact (hv _ (by rw [List.getD_eq_getElem _ _ hi]; exact List.getElem_mem hi)).2
    · rw [List.getD_eq_default _ _ (by omega)]; norm_num

theorem fri_prover_iteration_mem_range (cw : List Int) (β q inv2 ω : Int)
    (hq : 0 < q) : ∀ v ∈ fri_prover_iteration cw β q inv2 ω, 0 ≤ v ∧ v < q := by
  intro v hv
  unfold fri_prover_iteration at hv
  exact friLoop_mem_range cw β q inv2 ω hq _ _ _ v hv

theorem cw1Big_range : ∀ v ∈ cw1Big, 0 ≤ v ∧ v < 2 ^ 127 := by
  intro v hv
  have h5 := fri_prover_iteration_mem_range cwBig chBig 5 inv2Big 1 (by norm_num) v hv
  exact ⟨h5.1, by omega⟩

theorem c0Big_wf : ∀ p ∈ c0Big, pathWF p := by
  intro p hp
  exact get_multi_proof_wf cw1Big [0] cw1Big_range (by rw [cw1Big_length]; norm_num) p hp

theorem slice42 : (encPaths ab0Big).take 42 =
    [2, 0, 0, 8, 0, 0, 1, 0, 0, 0, 0, 0, 0, 0, 0, 0, 0, 0, 0, 0, 0, 0,
     1, 0, 0, 0, 0, 0, 0, 0, 0, 0, 0, 0, 0, 0, 0, 0, 1, 0, 0, 0] := by
  rw [show encPaths ab0Big = enc16 2 ++
    (encPath { value := cwBig.getD 0 0, leaves := cwBig } ++
      (encPath { value := cwBig.getD 1024 0, leaves := cwBig } ++ [])) from rfl]
  rw [show encPath { value := cwBig.getD 0 0, leaves := cwBig } =
    enc32 cwBig.length ++ enc128 (cwBig.getD 0 0) ++ encLeaves cwBig from rfl]
  rw [cwBig_length, show cwBig.getD 0 0 = (1 : Int) from rfl]
  rw [show (42 : Nat) = 2 + 40 from rfl, take_chunk (enc16 2) _ 2 40 (encLE_length 2 2)]
  rw [take_le _ _ 40 (by
    simp only [List.length_append, enc32, encLE_length, enc128_length, encLeaves_length,
      cwBig_length]
    norm_num)]
  rw [List.append_assoc]
  rw [show (40 : Nat) = 4 + 36 from rfl, take_chunk (enc32 2048) _ 4 36 (encLE_length 4 2048)]
  rw [show (36 : Nat) = 16 + 20 from rfl, take_chunk (enc128 1) _ 16 20 (enc128_length 1)]
  rw [show encLeaves cwBig = enc128 1 ++ (enc128 1 ++ encLeaves (List.replicate 2046 1))
    from rfl]
  rw [show (20 : Nat) = 16 + 4 from rfl, take_chunk (enc128 1) _ 16 4 (enc128_length 1)]
  rw [take_le _ _ 4 (by rw [enc128_length]; norm_num)]
  decide

theorem enc16_length (n : Nat) : (enc16 n).length = 2 := encLE_length 2 n

theorem enc32_length (n : Nat) : (enc32 n).length = 4 := encLE_length 4 n

/-- One decoding round over a buffer whose second (`ab`) path serialization was
length-prefixed with a truncated `u16`: the short slice fails to decode. -/
theorem pathsRounds_one_bad (pre cb ab2 : List Nat) (c : List PartialAuthenticationPath)
    (hcb : cb.length < 2 ^ 16)
    (hdc : decPaths cb = some c)
    (hda : decPaths (ab2.take (ab2.length % 256 ^ 2)) = none) :
    pathsRounds (pre ++ (enc16 cb.length ++ (cb ++ (enc16 ab2.length ++ ab2)))) 1
      pre.length = .value none := by
  set ser := pre ++ (enc16 cb.length ++ (cb ++ (enc16 ab2.length ++ ab2))) with hser
  have hlen : ser.length = pre.length + 2 + cb.length + 2 + ab2.length := by
    rw [hser]
    simp only [List.length_append, enc16, encLE_length]
    omega
  have hmod := Nat.mod_le ab2.length (256 ^ 2)
  unfold pathsRounds
  dsimp only
  rw [if_neg (by omega)]
  have h1 : (ser.drop pre.length).take 2 = enc16 cb.length := by
    rw [hser, List.drop_left, List.take_left' (enc16_length _)]
  rw [h1, decLE_enc16 hcb]
  rw [if_neg (by omega)]
  have h2 : (ser.drop (pre.length + 2)).take cb.length = cb := by
    rw [hser, show pre ++ (enc16 cb.length ++ (cb ++ (enc16 ab2.length ++ ab2))) =
      (pre ++ enc16 cb.length) ++ (cb ++ (enc16 ab2.length ++ ab2)) by
        simp [List.append_assoc]]
    rw [List.drop_left' (by simp only [List.length_append, enc16_length]),
      List.take_left]
  rw [h2, hdc]
  dsimp only
  rw [if_neg (by omega)]
  have h3 : (ser.drop (pre.length + 2 + cb.length)).take 2 = enc16 ab2.length := by
    rw [hser, show pre ++ (enc16 cb.length ++ (cb ++ (enc16 ab2.length ++ ab2))) =
      (pre ++ enc16 cb.length ++ cb) ++ (enc16 ab2.length ++ ab2) by
        simp [List.append_assoc]]
    rw [List.drop_left' (by simp only [List.length_append, enc16_length]),
      List.take_left' (enc16_length _)]
  rw [h3, show decLE (enc16 ab2.length) = ab2.length % 256 ^ 2 from by
    rw [show enc16 ab2.length = encLE 2 ab2.length from rfl, decLE_encLE]]
  rw [if_neg (by omega)]
  have h4 : (ser.drop (pre.length + 2 + cb.length + 2)).take (ab2.length % 256 ^ 2) =
      ab2.take (ab2.length % 256 ^ 2) := by
    rw [hser, show pre ++ (enc16 cb.length ++ (cb ++ (enc16 ab2.length ++ ab2))) =
      (pre ++ enc16 cb.length ++ cb ++ enc16 ab2.length) ++ ab2 by
        simp [List.append_assoc]]
    rw [List.drop_left' (by simp only [List.length_append, enc16_length])]
  rw [h4, hda]

theorem pathsRounds_big : pathsRounds oBig 1 94 = .value none := by
  have h := pathsRounds_one_bad cstOutBig (encPaths c0Big) (encPaths ab0Big) c0Big
    (by rw [c0Big_len]; norm_num)
    (decPaths_encPaths c0Big c0Big_wf (by rw [c0Big_len]; norm_num))
    (by
      rw [ab0Big_len, show (65578 : Nat) % 256 ^ 2 = 42 by norm_num, slice42]
      decide)
  rw [show oBig = cstOutBig ++ (enc16 (encPaths c0Big).length ++ (encPaths c0Big ++
      (enc16 (encPaths ab0Big).length ++ encPaths ab0Big))) from by
    rw [show oBig = cstOutBig ++ enc16 (encPaths c0Big).length ++ encPaths c0Big ++
      enc16 (encPaths ab0Big).length ++ encPaths ab0Big from rfl,
      List.append_assoc, List.append_assoc, List.append_assoc]]
  rw [show (94 : Nat) = cstOutBig.length from cstOutBig_length.symm]
  exact h

/-- A decoder run that reads a well-formed header and a two-root block but
fails inside the paths block returns the bincode `codec` error. -/
theorem from_serialization_codec_one_round (o out0 R1 R2 P1 P2 P3 P4 : List Nat)
    (N d s mdlr : Nat) (ω : Int)
    (hoeq : o = out0 ++ enc32 N ++ enc32 d ++ enc32 s ++ enc16 (enc128 ω).length ++
      enc128 ω ++ R1 ++ R2 ++ P1 ++ P2 ++ P3 ++ P4)
    (hN : N < 2 ^ 32) (hd : d < 2 ^ 32) (hs : s < 2 ^ 32)
    (hω0 : 0 ≤ ω) (hω1 : ω < 2 ^ 127)
    (hgrc : get_rounds_count N d s = some (1, mdlr))
    (hR1 : R1.length = 32) (hR2 : R2.length = 32)
    (hpaths : pathsRounds o 1 (out0.length + 4 + 4 + 4 + 2 + 16 + (1 + 1) * 32) =
      .value none) :
    from_serialization o out0.length = .value (.error .codec) := by
  have holen : o.length = out0.length + 94 + P1.length + P2.length + P3.length +
      P4.length := by
    rw [hoeq]
    simp only [List.length_append, enc32_length, enc16_length, enc128_length, hR1, hR2]
  have hr1 : (o.drop out0.length).take 4 = enc32 N :=
    read_at o out0 (enc32 N)
      (enc32 d ++ (enc32 s ++ (enc16 (enc128 ω).length ++ (enc128 ω ++
        (R1 ++ (R2 ++ (P1 ++ (P2 ++ (P3 ++ P4)))))))))
      out0.length 4 (by rw [hoeq]; simp [List.append_assoc]) rfl (enc32_length _)
  have hr2 : (o.drop (out0.length + 4)).take 4 = enc32 d :=
    read_at o (out0 ++ enc32 N) (enc32 d)
      (enc32 s ++ (enc16 (enc128 ω).length ++ (enc128 ω ++
        (R1 ++ (R2 ++ (P1 ++ (P2 ++ (P3 ++ P4))))))))
      (out0.length + 4) 4 (by rw [hoeq]; simp [List.append_assoc])
      (by simp [enc32_length]) (enc32_length _)
  have hr3 : (o.drop (out0.length + 4 + 4)).take 4 = enc32 s :=
    read_at o (out0 ++ enc32 N ++ enc32 d) (enc32 s)
      (enc16 (enc128 ω).length ++ (enc128 ω ++
        (R1 ++ (R2 ++ (P1 ++ (P2 ++ (P3 ++ P4)))))))
      (out0.length + 4 + 4) 4 (by rw [hoeq]; simp [List.append_assoc])
      (by simp [enc32_length]) (enc32_length _)
  have hr4 : (o.drop (out0.length + 4 + 4 + 4)).take 2 = enc16 (enc128 ω).length :=
    read_at o (out0 ++ enc32 N ++ enc32 d ++ enc32 s) (enc16 (enc128 ω).length)
      (enc128 ω ++ (R1 ++ (R2 ++ (P1 ++ (P2 ++ (P3 ++ P4))))))
      (out0.length + 4 + 4 + 4) 2
      (by rw [hoeq]; simp [List.append_assoc])
      (by simp [enc32_length]) (enc16_length _)
  have hr5 : (o.drop (out0.length + 4 + 4 + 4 + 2)).take 16 = enc128 ω :=
    read_at o (out0 ++ enc32 N ++ enc32 d ++ enc32 s ++ enc16 (enc128 ω).length)
      (enc128 ω) (R1 ++ (R2 ++ (P1 ++ (P2 ++ (P3 ++ P4)))))
      (out0.length + 4 + 4 + 4 + 2) 16
      (by rw [hoeq]; simp [List.append_assoc])
      (by simp [enc32_length, enc16_length]) (enc128_length _)
  unfold from_serialization
  dsimp only
  rw [hr1, decLE_enc32 hN, hr2, decLE_enc32 hd, hr3, decLE_enc32 hs, hr4,
    decLE_enc16 (by rw [enc128_length]; norm_num), enc128_length, hr5,
    dec128_enc128 hω0 hω1, hgrc]
  rw [if_neg (by omega)]
  rw [if_neg (by omega)]
  rw [if_neg (by omega)]
  rw [if_neg (by omega)]
  rw [if_neg (by omega)]
  dsimp only
  rw [if_neg (by omega)]
  rw [if_neg (by omega)]
  rw [hpaths]

/-- Claim C4, counterexample to the unconditional statement: on a valid 2048-entry
codeword the prover succeeds, but the 65578-byte round-0 `ab` path serialization
overflows its `u16` length prefix (`len() as u16` truncates to 42), so decoding
the emitted transcript fails with a bincode error instead of returning the
emitted proof. -/
theorem C4_codec_roundtrip_counterexample :
    ∃ (o : List Nat) (p : LowDegreeProof),
      prover zeroHash cwBig 5 1 1 [] 1 = .value (o, .ok p) ∧
      from_serialization o 0 = .value (.error .codec) := by
  refine ⟨oBig, pBig, prover_big, ?_⟩
  have h := from_serialization_codec_one_round oBig []
    (merkle_root zeroHash cwBig) (merkle_root zeroHash cw1Big)
    (enc16 (encPaths c0Big).length) (encPaths c0Big)
    (enc16 (encPaths ab0Big).length) (encPaths ab0Big)
    cwBig.length 1 1 0 1
    rfl
    (by rw [cwBig_length]; norm_num) (by norm_num) (by norm_num)
    (by norm_num) (by norm_num) grc_big
    (digest32_length zeroHash _) (digest32_length zeroHash _)
    (by
      rw [show ([] : List Nat).length + 4 + 4 + 4 + 2 + 16 + (1 + 1) * 32 = 94 by simp]
      exact pathsRounds_big)
  exact h
end FriLdt
